import Mathlib

/-!
Verification development for the Factiva batch parser
(`factiva_to_df` in `factiva_parse.ipynb`).

The program is embedded shallowly over `List Char`:

* `pws` / `isUp` model the Python character classes used by the code
  (the regex classes `\s` and `[A-Z]`, restricted to the ASCII range which
  is what the text format uses); `lstrip`/`rstrip`/`pstrip` model
  `str.strip()`.
* `tagMatchAt` gives the length of a match of the field-tag regex
  (a whitespace character, 2-3 uppercase letters, a newline) at the head of
  a string; `reSplit` models `re.split` with the capturing group, i.e. a
  split that keeps the tag delimiters interleaved with the text segments.
* `step` models one iteration of the segment walk (inline `HD`, inline
  `SE`, generic tag line, free text, followed by the guarded dictionary
  write), `parseCore`/`parseDoc` the whole per-article parse.
* `takeBefore`, `splitFF`, `fileDocs`, `processFile`, `txtFiles`,
  `sortFiles` and `factivaBatch` model the loader: dropping the trailing
  "Search Summary" section, splitting on the page-break character `\x0c`,
  skipping blocks that are empty after trimming, filtering `.txt` files and
  processing them in lexicographically sorted filename order.
-/

set_option maxHeartbeats 1000000

namespace Factiva

/-- Characters of the Python whitespace class `\s` (and of `str.strip()`),
restricted to the ASCII range used by the input format. -/
def pws (c : Char) : Bool :=
  c = ' ' || c = '\t' || c = '\n' || c = '\r' || c = '\x0b' || c = '\x0c'

/-- Characters of the regex class `[A-Z]` (exactly ASCII in Python). -/
def isUp (c : Char) : Bool := 'A' ≤ c && c ≤ 'Z'

/-- Text is modelled as a list of characters. -/
abbrev LC := List Char

/-- Left part of Python `str.strip()`. -/
def lstrip (s : LC) : LC := s.dropWhile pws

/-- Right part of Python `str.strip()`. -/
def rstrip (s : LC) : LC := (lstrip s.reverse).reverse

/-- Python `str.strip()`: drop leading and trailing whitespace. -/
def pstrip (s : LC) : LC := rstrip (lstrip s)

/-- Does the 5-character form of the tag regex (whitespace, three
uppercase letters, newline) match at the head? -/
def m5 : LC → Bool
  | c0 :: c1 :: c2 :: c3 :: c4 :: _ =>
    pws c0 && isUp c1 && isUp c2 && isUp c3 && (c4 = '\n')
  | _ => false

/-- Does the 4-character form of the tag regex (whitespace, two uppercase
letters, newline) match at the head? -/
def m4 : LC → Bool
  | c0 :: c1 :: c2 :: c3 :: _ =>
    pws c0 && isUp c1 && isUp c2 && (c3 = '\n')
  | _ => false

/-- Length (4 or 5) of a match of the tag regex
(a whitespace character, then 2-3 uppercase letters, then a newline)
at the head of the string, or `none` if it does not match there.
The quantifier 2-3 is greedy but the two forms are mutually exclusive
(the character after the letters differs), so the order is immaterial. -/
def tagMatchAt (s : LC) : Option Nat :=
  if m5 s then some 5 else if m4 s then some 4 else none

/-- Worker for `reSplit`; the fuel argument is an upper bound on the length
of the remaining text, so the `0` case is never reached on the real call.
`acc` holds the current non-tag segment, reversed. -/
def reSplitFuel : Nat → LC → LC → List LC
  | 0, acc, s => [acc.reverse ++ s]
  | fuel + 1, acc, s =>
    match tagMatchAt s with
    | some k => acc.reverse :: s.take k :: reSplitFuel fuel [] (s.drop k)
    | none =>
      match s with
      | [] => [acc.reverse]
      | c :: cs => reSplitFuel fuel (c :: acc) cs

/-- Python `re.split` with the capturing tag pattern: leftmost,
non-overlapping matches become their own elements of the result,
interleaved with the (possibly empty) non-tag segments. -/
def reSplit (s : LC) : List LC := reSplitFuel s.length [] s

/-- Python `re.match` of `^HD\s` against a segment. -/
def inHD (s : LC) : Bool :=
  match s with
  | c0 :: c1 :: c2 :: _ => c0 = 'H' && c1 = 'D' && pws c2
  | _ => false

/-- Python `re.match` of `^SE\s` against a segment. -/
def inSE (s : LC) : Bool :=
  match s with
  | c0 :: c1 :: c2 :: _ => c0 = 'S' && c1 = 'E' && pws c2
  | _ => false

/-- The headline field code. -/
def hdK : LC := ['H', 'D']

/-- The section field code. -/
def seK : LC := ['S', 'E']

/-- The configured list of retained field codes, in configured order
(the `fieldnames` list of the notebook). -/
def fieldnames : List LC :=
  [['S','E'], ['H','D'], ['W','C'], ['P','D'], ['S','N'], ['S','C'],
   ['L','A'], ['C','Y'], ['N','S'], ['C','O'], ['R','E'], ['P','U','B'],
   ['A','N'], ['L','P'], ['T','D']]

/-- Python dict assignment `d[k] = v`: overwrite in place if the key is
present, otherwise append at the end. -/
def upsert (d : List (LC × LC)) (k v : LC) : List (LC × LC) :=
  match d with
  | [] => [(k, v)]
  | (k', v') :: rest =>
    if k' = k then (k, v) :: rest else (k', v') :: upsert rest k v

/-- Python dict lookup, `none` when the key is absent. -/
def plookup (d : List (LC × LC)) (k : LC) : Option LC :=
  match d with
  | [] => none
  | (k', v') :: rest => if k' = k then some v' else plookup rest k

/-- State of the segment walk: the `key` and `value` variables and the
`metadata_dict` being built. -/
structure PSt where
  key : LC
  val : LC
  dict : List (LC × LC)
deriving Repr, DecidableEq

/-- State at the start of a document: `key, value = '', ''` and an empty
dictionary. -/
def startSt : PSt := ⟨[], [], []⟩

/-- One iteration of the segment walk of `factiva_to_df`: classify the
segment (inline `HD`, inline `SE`, generic tag line, free text) and then
write `key -> value` into the dictionary when `key` is a configured
field code. -/
def step (st : PSt) (s : LC) : PSt :=
  let kv : LC × LC :=
    if inHD s then (hdK, pstrip (s.drop 3))
    else if inSE s then (seK, pstrip (s.drop 3))
    else if (tagMatchAt s).isSome then (pstrip s, st.val)
    else (st.key, pstrip s)
  { key := kv.1, val := kv.2,
    dict := if kv.1 ∈ fieldnames then upsert st.dict kv.1 kv.2 else st.dict }

/-- Parse one already-trimmed article block: split it on the tag pattern
and walk the segments. -/
def parseCore (s : LC) : List (LC × LC) :=
  (List.foldl step startSt (reSplit s)).dict

/-- The Field-Tag Parser on a raw article block: trim it, then parse. -/
def parseDoc (doc : LC) : List (LC × LC) := parseCore (pstrip doc)

/-- Does `m` occur at the head of `s`? -/
def leadsWith : LC → LC → Bool
  | [], _ => true
  | _ :: _, [] => false
  | a :: as, b :: bs => a = b && leadsWith as bs

/-- The literal summary-header marker `'\nSearch Summary\n'`. -/
def marker : LC :=
  '\n' :: (['S','e','a','r','c','h',' ','S','u','m','m','a','r','y'] ++ ['\n'])

/-- Everything before the first occurrence of `m`, or the whole text when
`m` does not occur: this is `re.split(m, text)[0]`. -/
def takeBefore (m : LC) : LC → LC
  | [] => []
  | c :: cs => if leadsWith m (c :: cs) then [] else c :: takeBefore m cs

/-- Split on the page-break character `'\x0c'` (the `'\f'` separator). -/
def splitFF : LC → List LC
  | [] => [[]]
  | c :: cs =>
    if c = '\x0c' then [] :: splitFF cs
    else
      match splitFF cs with
      | r :: rs => (c :: r) :: rs
      | [] => [[c]]

/-- The trimmed, non-empty article blocks of one file's text: drop the
summary section, split on page breaks, trim each block and skip the
blocks that are empty after trimming. -/
def fileDocs (text : LC) : List LC :=
  ((splitFF (takeBefore marker text)).map pstrip).filter (fun d => !d.isEmpty)

/-- One output row: one cell per configured field code, in configured
order; `none` for a code the record does not set. -/
def rowOf (d : List (LC × LC)) : List (Option LC) :=
  fieldnames.map (fun f => plookup d f)

/-- All rows contributed by one file's text. -/
def processFile (text : LC) : List (List (Option LC)) :=
  (fileDocs text).map (fun d => rowOf (parseCore d))

/-- Lexicographic comparison of filenames by character code, as Python
`sorted` compares strings. -/
def lexLe : LC → LC → Bool
  | [], _ => true
  | _ :: _, [] => false
  | a :: as, b :: bs => if a = b then lexLe as bs else decide (a < b)

/-- A file of the input directory: filename and decoded content. -/
abbrev FFile := LC × LC

/-- Name order on files. -/
def fRel (f g : FFile) : Prop := lexLe f.1 g.1 = true

instance : DecidableRel fRel := fun f g => by unfold fRel; infer_instance

/-- Does the filename end in `.txt` (the glob pattern `*.txt`)? -/
def endsTxt (n : LC) : Bool := leadsWith ['t','x','t','.'] n.reverse

/-- The files matching the `*.txt` glob. -/
def txtFiles (files : List FFile) : List FFile :=
  files.filter (fun f => endsTxt f.1)

/-- The matched files in lexicographically sorted filename order
(`sorted(glob.iglob(path + "*.txt"))`). -/
def sortFiles (files : List FFile) : List FFile :=
  List.insertionSort fRel files

/-- Concatenation of the per-element lists, in order. -/
def concatMap (f : α → List β) : List α → List β
  | [] => []
  | a :: as => f a ++ concatMap f as

/-- The whole run of `factiva_to_df` on a directory, modelled as a list of
(filename, content) pairs: the rows of the final dataframe in file-then-
position order. -/
def factivaBatch (files : List FFile) : List (List (Option LC)) :=
  concatMap (fun f => processFile f.2) (sortFiles (txtFiles files))

/-- Does the tag pattern occur anywhere in `v` (as a substring)? -/
def hasTagPattern (v : LC) : Bool :=
  (List.range v.length).any (fun p => (tagMatchAt (v.drop p)).isSome)

/-- An isolated tag line of the generic layout: a whitespace character
(here a space), the tag, a newline. -/
def delimOf (t : LC) : LC := ' ' :: (t ++ ['\n'])

/-- A synthetic block in the generic isolated-tag-line layout: for each
pair, a space, the tag on its own line, then the value. -/
def blockTail (ps : List (LC × LC)) : LC :=
  match ps with
  | [] => []
  | (t, v) :: rest => ' ' :: (t ++ '\n' :: (v ++ blockTail rest))

/-- The segments that the split produces for the part of a block after its
first segment: one delimiter element and one value segment per pair. -/
def segsOf (ps : List (LC × LC)) : List LC :=
  match ps with
  | [] => []
  | (t, v) :: rest => delimOf t :: v :: segsOf rest

/-- A well-formed field code: 2-3 uppercase letters. -/
def tagOK (t : LC) : Bool :=
  (t.length = 2 || t.length = 3) && t.all isUp

/-- The pair list with the last value right-stripped, which is how the
trim of the whole block reaches the last value. -/
def mapLastVal : List (LC × LC) → List (LC × LC)
  | [] => []
  | [p] => [(p.1, rstrip p.2)]
  | p :: q :: rest => p :: mapLastVal (q :: rest)

/-- The last value of `(t1, v1) :: tps`. -/
def lastVal (v1 : LC) (tps : List (LC × LC)) : LC :=
  match tps with
  | [] => v1
  | p :: rest => lastVal p.2 rest

/-- The first value of a block as the whole-block trim reaches it: right-
stripped when it is also the last value of the block. -/
def headVal (v1 : LC) : List (LC × LC) → LC
  | [] => rstrip v1
  | _ :: _ => v1

/-- The net effect of one (tag, value) pair on the dictionary. -/
def upsF (d : List (LC × LC)) (p : LC × LC) : List (LC × LC) :=
  upsert d p.1 (pstrip p.2)

/-- A pair that behaves well in the generic layout: a configured tag, and
a value free of tag-pattern occurrences that does not begin with an inline
headline or section form. -/
def goodPair (p : LC × LC) : Prop :=
  p.1 ∈ fieldnames ∧ hasTagPattern p.2 = false ∧
    inHD p.2 = false ∧ inSE p.2 = false

instance (p : LC × LC) : Decidable (goodPair p) := by
  unfold goodPair
  infer_instance

/-- Checked variant of `step`: the 3-character prefix slice taken in the
inline `HD`/`SE` branches is guarded by a length check and every other
branch returns normally, so a run that reaches a short slice would
surface as an error value. -/
def stepE (st : PSt) (s : LC) : Except String PSt :=
  if inHD s then
    if 3 ≤ s.length then
      pure { key := hdK, val := pstrip (s.drop 3),
             dict := if hdK ∈ fieldnames then upsert st.dict hdK (pstrip (s.drop 3))
                     else st.dict }
    else .error "inline headline segment shorter than its 3-character prefix"
  else if inSE s then
    if 3 ≤ s.length then
      pure { key := seK, val := pstrip (s.drop 3),
             dict := if seK ∈ fieldnames then upsert st.dict seK (pstrip (s.drop 3))
                     else st.dict }
    else .error "inline section segment shorter than its 3-character prefix"
  else if (tagMatchAt s).isSome then
    pure { key := pstrip s, val := st.val,
           dict := if pstrip s ∈ fieldnames then upsert st.dict (pstrip s) st.val
                   else st.dict }
  else
    pure { key := st.key, val := pstrip s,
           dict := if st.key ∈ fieldnames then upsert st.dict st.key (pstrip s)
                   else st.dict }

/-- Checked variant of `parseCore`. -/
def parseCoreE (s : LC) : Except String (List (LC × LC)) :=
  (List.foldlM stepE startSt (reSplit s)).map (fun st => st.dict)

/-- Checked variant of `parseDoc`. -/
def parseDocE (doc : LC) : Except String (List (LC × LC)) :=
  parseCoreE (pstrip doc)

/-- Alternation shape of a kept-delimiter split: a segment that does not
start with the tag pattern, then alternately a full tag match and another
such segment, ending with a segment. -/
def altSegs : List LC → Prop
  | [] => False
  | [s] => tagMatchAt s = none
  | s :: d :: rest =>
    tagMatchAt s = none ∧ tagMatchAt d = some d.length ∧ altSegs rest


/-! ### Basic facts about the tag pattern matcher -/

/-- Uppercase letters are not whitespace. -/
lemma pws_false_of_isUp {c : Char} (h : isUp c = true) : pws c = false := by
  by_contra hc
  have hc' : pws c = true := by
    cases h' : pws c
    · exact absurd h' hc
    · rfl
  unfold pws at hc'
  simp only [Bool.or_eq_true, decide_eq_true_eq] at hc'
  rcases hc' with ((((h1 | h1) | h1) | h1) | h1) | h1 <;>
    (subst h1; exact absurd h (by decide))

lemma m5_false_head {a : Char} {r : LC} (h : pws a = false) :
    m5 (a :: r) = false := by
  match r with
  | [] | [b] | [b, c] | [b, c, d] => rfl
  | b :: c :: d :: e :: r' => simp [m5, h]

lemma m4_false_head {a : Char} {r : LC} (h : pws a = false) :
    m4 (a :: r) = false := by
  match r with
  | [] | [b] | [b, c] => rfl
  | b :: c :: d :: r' => simp [m4, h]

lemma m5_false_at2 {a b : Char} {r : LC} (h : isUp b = false) :
    m5 (a :: b :: r) = false := by
  match r with
  | [] | [c] | [c, d] => rfl
  | c :: d :: e :: r' => simp [m5, h]

lemma m4_false_at2 {a b : Char} {r : LC} (h : isUp b = false) :
    m4 (a :: b :: r) = false := by
  match r with
  | [] | [c] => rfl
  | c :: d :: r' => simp [m4, h]

lemma m5_false_at3 {a b c : Char} {r : LC} (h : isUp c = false) :
    m5 (a :: b :: c :: r) = false := by
  match r with
  | [] | [d] => rfl
  | d :: e :: r' => simp [m5, h]

lemma m4_false_at3 {a b c : Char} {r : LC} (h : isUp c = false) :
    m4 (a :: b :: c :: r) = false := by
  match r with
  | [] => rfl
  | d :: r' => simp [m4, h]

lemma m5_false_at4 {a b c d : Char} {r : LC} (h : isUp d = false) :
    m5 (a :: b :: c :: d :: r) = false := by
  match r with
  | [] => rfl
  | e :: r' => simp [m5, h]

lemma m4_false_at4 {a b c d : Char} {r : LC} (h : d ≠ '\n') :
    m4 (a :: b :: c :: d :: r) = false := by
  simp [m4, h]

lemma m5_false_at5 {a b c d e : Char} {r : LC} (h : e ≠ '\n') :
    m5 (a :: b :: c :: d :: e :: r) = false := by
  simp [m5, h]

lemma m5_true_shape {a b c d : Char} {r : LC} (ha : pws a = true)
    (hb : isUp b = true) (hc : isUp c = true) (hd : isUp d = true) :
    m5 (a :: b :: c :: d :: '\n' :: r) = true := by
  simp [m5, ha, hb, hc, hd]

lemma m4_true_shape {a b c : Char} {r : LC} (ha : pws a = true)
    (hb : isUp b = true) (hc : isUp c = true) :
    m4 (a :: b :: c :: '\n' :: r) = true := by
  simp [m4, ha, hb, hc]

lemma m5_length {s : LC} (h : m5 s = true) : 5 ≤ s.length := by
  match s with
  | [] | [a] | [a, b] | [a, b, c] | [a, b, c, d] => simp [m5] at h
  | a :: b :: c :: d :: e :: r => simp only [List.length_cons]; omega

lemma m4_length {s : LC} (h : m4 s = true) : 4 ≤ s.length := by
  match s with
  | [] | [a] | [a, b] | [a, b, c] => simp [m4] at h
  | a :: b :: c :: d :: r => simp only [List.length_cons]; omega

lemma m5_append {s : LC} (h : 5 ≤ s.length) (t : LC) : m5 (s ++ t) = m5 s := by
  match s with
  | a :: b :: c :: d :: e :: r => simp [m5]
  | [] | [a] | [a, b] | [a, b, c] | [a, b, c, d] => simp at h

lemma m4_append {s : LC} (h : 4 ≤ s.length) (t : LC) : m4 (s ++ t) = m4 s := by
  match s with
  | a :: b :: c :: d :: r => simp [m4]
  | [] | [a] | [a, b] | [a, b, c] => simp at h

lemma tagMatch_none_iff {s : LC} :
    tagMatchAt s = none ↔ m5 s = false ∧ m4 s = false := by
  unfold tagMatchAt
  by_cases h5 : m5 s = true
  · simp [h5]
  · rw [Bool.not_eq_true] at h5
    by_cases h4 : m4 s = true
    · simp [h5, h4]
    · rw [Bool.not_eq_true] at h4
      simp [h5, h4]

lemma tagMatch_some5 {s : LC} (h : m5 s = true) : tagMatchAt s = some 5 := by
  simp [tagMatchAt, h]

lemma tagMatch_some4 {s : LC} (h5 : m5 s = false) (h4 : m4 s = true) :
    tagMatchAt s = some 4 := by
  simp [tagMatchAt, h5, h4]

lemma tagMatch_some_elim {s : LC} {k : Nat} (h : tagMatchAt s = some k) :
    (k = 5 ∧ m5 s = true) ∨ (k = 4 ∧ m4 s = true ∧ m5 s = false) := by
  unfold tagMatchAt at h
  by_cases h5 : m5 s = true
  · simp [h5] at h
    exact Or.inl ⟨h.symm, h5⟩
  · rw [Bool.not_eq_true] at h5
    by_cases h4 : m4 s = true
    · simp [h5, h4] at h
      exact Or.inr ⟨h.symm, h4, h5⟩
    · rw [Bool.not_eq_true] at h4
      simp [h5, h4] at h

/-- The matcher fails when the head character is not whitespace. -/
lemma tagMatch_not_ws {c : Char} (h : pws c = false) (l : LC) :
    tagMatchAt (c :: l) = none :=
  tagMatch_none_iff.2 ⟨m5_false_head h, m4_false_head h⟩

/-- A match length is 4 or 5 and fits inside the string. -/
lemma tagMatch_bounds {s : LC} {k : Nat} (h : tagMatchAt s = some k) :
    (k = 4 ∨ k = 5) ∧ k ≤ s.length := by
  rcases tagMatch_some_elim h with ⟨rfl, h5⟩ | ⟨rfl, h4, _⟩
  · exact ⟨Or.inr rfl, m5_length h5⟩
  · exact ⟨Or.inl rfl, m4_length h4⟩

/-- A match at the head survives appending text at the end. -/
lemma tagMatch_ext {s : LC} {k : Nat} (h : tagMatchAt s = some k) (t : LC) :
    tagMatchAt (s ++ t) = some k := by
  rcases tagMatch_some_elim h with ⟨rfl, h5⟩ | ⟨rfl, h4, h5⟩
  · exact tagMatch_some5 (by rw [m5_append (m5_length h5)]; exact h5)
  · have hlen := m4_length h4
    have hm4 : m4 (s ++ t) = true := by rw [m4_append hlen]; exact h4
    have hm5 : m5 (s ++ t) = false := by
      by_cases hl : 5 ≤ s.length
      · rw [m5_append hl]; exact h5
      · have : s.length = 4 := by omega
        match s, this with
        | [a, b, c, d], _ =>
          have hd : d = '\n' := by
            match hh : m4 [a, b, c, d] with
            | false => rw [hh] at h4; exact absurd h4 (by simp)
            | true =>
              by_contra hne
              rw [m4_false_at4 hne] at hh
              exact absurd hh (by simp)
          subst hd
          exact m5_false_at4 (by decide)
    exact tagMatch_some4 hm5 hm4

/-- The matcher only looks at the first five characters. -/
lemma tagMatch_five {s : LC} (h : 5 ≤ s.length) (t : LC) :
    tagMatchAt (s ++ t) = tagMatchAt s := by
  unfold tagMatchAt
  rw [m5_append h, m4_append (by omega)]

/-- A match is preserved by truncating the string to the match itself. -/
lemma tagMatch_take {s : LC} {k : Nat} (h : tagMatchAt s = some k) :
    tagMatchAt (s.take k) = some k := by
  rcases tagMatch_some_elim h with ⟨rfl, h5⟩ | ⟨rfl, h4, h5⟩
  · match s, m5_length h5 with
    | a :: b :: c :: d :: e :: r, _ =>
      have he : e = '\n' := by
        by_contra hne
        rw [m5_false_at5 hne] at h5
        exact absurd h5 (by simp)
      subst he
      simp only [List.take]
      apply tagMatch_some5
      simp [m5] at h5 ⊢
      exact ⟨⟨⟨h5.1.1.1, h5.1.1.2⟩, h5.1.2⟩, h5.2⟩
  · match s, m4_length h4 with
    | a :: b :: c :: d :: r, _ =>
      have hd : d = '\n' := by
        by_contra hne
        rw [m4_false_at4 hne] at h4
        exact absurd h4 (by simp)
      subst hd
      simp only [List.take]
      apply tagMatch_some4 (by rfl)
      simp [m4] at h4 ⊢
      exact h4

/-- Appending text that is empty or starts with a space cannot create a
match at the head of a non-empty string that had none. -/
lemma tagMatch_append_none {u : LC} (hne : u ≠ [])
    (h : tagMatchAt u = none) {rest : LC}
    (hr : rest = [] ∨ ∃ tl, rest = ' ' :: tl) :
    tagMatchAt (u ++ rest) = none := by
  rcases hr with rfl | ⟨tl, rfl⟩
  · simpa using h
  rcases tagMatch_none_iff.1 h with ⟨h5, h4⟩
  apply tagMatch_none_iff.2
  match u with
  | [a] =>
    exact ⟨m5_false_at2 (by decide), m4_false_at2 (by decide)⟩
  | [a, b] =>
    exact ⟨m5_false_at3 (by decide), m4_false_at3 (by decide)⟩
  | [a, b, c] =>
    exact ⟨m5_false_at4 (by decide), m4_false_at4 (by decide)⟩
  | [a, b, c, d] =>
    refine ⟨m5_false_at5 (by decide), ?_⟩
    rw [show [a, b, c, d] ++ ' ' :: tl = [a, b, c, d] ++ (' ' :: tl) from rfl,
      m4_append (by simp)]
    exact h4
  | a :: b :: c :: d :: e :: r =>
    constructor
    · rw [show (a :: b :: c :: d :: e :: r) ++ ' ' :: tl
          = (a :: b :: c :: d :: e :: r) ++ (' ' :: tl) from rfl,
        m5_append (by simp only [List.length_cons]; omega)]
      exact h5
    · rw [m4_append (by simp only [List.length_cons]; omega)]
      exact h4

/-- No occurrence of the tag pattern anywhere in the string. -/
def noMatch (s : LC) : Prop := ∀ p, tagMatchAt (s.drop p) = none

/-- The executable occurrence check agrees with `noMatch`. -/
lemma hasTagPattern_false_iff {v : LC} :
    hasTagPattern v = false ↔ noMatch v := by
  unfold hasTagPattern noMatch
  rw [← Bool.not_eq_true, List.any_eq_true]
  constructor
  · intro h p
    by_cases hp : p < v.length
    · cases hm : tagMatchAt (v.drop p) with
      | none => rfl
      | some k =>
        exact absurd ⟨p, List.mem_range.2 hp, by simp [hm]⟩ h
    · rw [List.drop_of_length_le (by omega)]
      rfl
  · rintro h ⟨p, _, hp⟩
    rw [h p] at hp
    simp at hp

/-- A prefix of a string with no occurrence has no occurrence. -/
lemma noMatch_of_append {a b v : LC} (hv : a ++ b = v) (h : noMatch v) :
    noMatch a := by
  intro p
  by_cases hp : p ≤ a.length
  · cases hm : tagMatchAt (a.drop p) with
    | none => rfl
    | some k =>
      have hext := tagMatch_ext hm b
      rw [← List.drop_append_of_le_length hp, hv, h p] at hext
      exact absurd hext (by simp)
  · rw [List.drop_of_length_le (by omega)]
    rfl

/-! ### Facts about stripping -/

lemma lstrip_nil : lstrip [] = [] := rfl

lemma lstrip_cons_pos {c : Char} (h : pws c = true) (s : LC) :
    lstrip (c :: s) = lstrip s := by
  simp [lstrip, List.dropWhile_cons, h]

lemma lstrip_cons_neg {c : Char} (h : pws c = false) (s : LC) :
    lstrip (c :: s) = c :: s := by
  simp [lstrip, List.dropWhile_cons, h]

lemma lstrip_idem (s : LC) : lstrip (lstrip s) = lstrip s := by
  induction s with
  | nil => rfl
  | cons c s ih =>
    cases h : pws c
    · rw [lstrip_cons_neg h, lstrip_cons_neg h]
    · rw [lstrip_cons_pos h, ih]

lemma lstrip_eq_self {s : LC} (h : ∀ c ∈ s, pws c = false) :
    lstrip s = s := by
  cases s with
  | nil => rfl
  | cons c s => exact lstrip_cons_neg (h c (by simp)) s

lemma lstrip_eq_nil_iff {s : LC} :
    lstrip s = [] ↔ ∀ c ∈ s, pws c = true := by
  induction s with
  | nil => simp [lstrip]
  | cons c s ih =>
    cases h : pws c
    · rw [lstrip_cons_neg h]
      simp [h]
    · rw [lstrip_cons_pos h]
      simp [h, ih]

lemma lstrip_append_of_ne {x : LC} (h : lstrip x ≠ []) (y : LC) :
    lstrip (x ++ y) = lstrip x ++ y := by
  induction x with
  | nil => exact absurd rfl h
  | cons c x ih =>
    cases hc : pws c
    · rw [List.cons_append, lstrip_cons_neg hc, lstrip_cons_neg hc]
      rfl
    · rw [lstrip_cons_pos hc] at h ⊢
      rw [List.cons_append, lstrip_cons_pos hc, ih h]

lemma lstrip_append_of_nil {x : LC} (h : lstrip x = []) (y : LC) :
    lstrip (x ++ y) = lstrip y := by
  induction x with
  | nil => rfl
  | cons c x ih =>
    cases hc : pws c
    · rw [lstrip_cons_neg hc] at h
      exact absurd h (by simp)
    · rw [lstrip_cons_pos hc] at h
      rw [List.cons_append, lstrip_cons_pos hc, ih h]

lemma rstrip_nil : rstrip [] = [] := rfl

lemma rstrip_eq_nil_iff {s : LC} :
    rstrip s = [] ↔ ∀ c ∈ s, pws c = true := by
  unfold rstrip
  rw [List.reverse_eq_nil_iff, lstrip_eq_nil_iff]
  constructor
  · intro h c hc
    exact h c (by simpa using hc)
  · intro h c hc
    exact h c (by simpa using hc)

lemma rstrip_append {b : LC} (h : rstrip b ≠ []) (a : LC) :
    rstrip (a ++ b) = a ++ rstrip b := by
  unfold rstrip at *
  have hb : lstrip b.reverse ≠ [] := by
    intro hn
    rw [hn] at h
    exact h rfl
  rw [List.reverse_append, lstrip_append_of_ne hb, List.reverse_append,
    List.reverse_reverse]

lemma rstrip_eq_self {s : LC} (h : ∀ c ∈ s, pws c = false) :
    rstrip s = s := by
  unfold rstrip
  rw [lstrip_eq_self (fun c hc => h c (by simpa using hc)), List.reverse_reverse]

lemma rstrip_cons_of_ne {c : Char} {s : LC} (h : rstrip s ≠ []) :
    rstrip (c :: s) = c :: rstrip s := by
  rw [show c :: s = [c] ++ s from rfl, rstrip_append h]
  rfl

lemma rstrip_cons_of_nil {c : Char} {s : LC} (h : rstrip s = []) :
    rstrip (c :: s) = if pws c then [] else [c] := by
  unfold rstrip at *
  rw [List.reverse_eq_nil_iff] at h
  rw [show (c :: s).reverse = s.reverse ++ [c] from by simp,
    lstrip_append_of_nil h]
  cases hc : pws c
  · rw [lstrip_cons_neg hc]
    simp
  · rw [lstrip_cons_pos hc]
    simp [lstrip]

lemma rstrip_idem (s : LC) : rstrip (rstrip s) = rstrip s := by
  unfold rstrip
  rw [List.reverse_reverse, lstrip_idem]

lemma lstrip_rstrip (s : LC) : lstrip (rstrip s) = rstrip (lstrip s) := by
  induction s with
  | nil => rfl
  | cons c s ih =>
    cases hc : pws c
    · rw [lstrip_cons_neg hc]
      by_cases h : rstrip s = []
      · have h1 : rstrip (c :: s) = [c] := by
          rw [rstrip_cons_of_nil h, hc]
          simp
        rw [h1, lstrip_cons_neg hc]
      · rw [rstrip_cons_of_ne h, lstrip_cons_neg hc]
    · rw [lstrip_cons_pos hc]
      by_cases h : rstrip s = []
      · have h1 : rstrip (c :: s) = [] := by
          rw [rstrip_cons_of_nil h, hc]
          simp
        have h2 : lstrip s = [] :=
          lstrip_eq_nil_iff.2 (rstrip_eq_nil_iff.1 h)
        rw [h1, h2]
        rfl
      · rw [rstrip_cons_of_ne h, lstrip_cons_pos hc, ih]

lemma pstrip_rstrip (v : LC) : pstrip (rstrip v) = pstrip v := by
  unfold pstrip
  rw [lstrip_rstrip, rstrip_idem]

lemma pstrip_idem (s : LC) : pstrip (pstrip s) = pstrip s := by
  unfold pstrip
  rw [lstrip_rstrip, rstrip_idem, lstrip_idem]

/-- The right strip is an initial segment of the string. -/
lemma rstrip_append_eq (x : LC) :
    rstrip x ++ (x.reverse.takeWhile pws).reverse = x := by
  unfold rstrip lstrip
  rw [← List.reverse_append, List.takeWhile_append_dropWhile, List.reverse_reverse]

/-! ### The kept-delimiter split -/

lemma tagMatch_nil : tagMatchAt [] = none := rfl

/-- Unfolding equation of `reSplitFuel` at positive fuel. -/
lemma reSplitFuel_succ (f : Nat) (acc s : LC) :
    reSplitFuel (f + 1) acc s
      = (match tagMatchAt s with
         | some k => acc.reverse :: s.take k :: reSplitFuel f [] (s.drop k)
         | none =>
           match s with
           | [] => [acc.reverse]
           | c :: cs => reSplitFuel f (c :: acc) cs) := rfl

lemma reSplitFuel_succ_some {s : LC} {k : Nat} (hm : tagMatchAt s = some k)
    (f : Nat) (acc : LC) :
    reSplitFuel (f + 1) acc s
      = acc.reverse :: s.take k :: reSplitFuel f [] (s.drop k) := by
  rw [reSplitFuel_succ, hm]

lemma reSplitFuel_succ_nil (f : Nat) (acc : LC) :
    reSplitFuel (f + 1) acc [] = [acc.reverse] := rfl

lemma reSplitFuel_succ_none {c : Char} {cs : LC}
    (hm : tagMatchAt (c :: cs) = none) (f : Nat) (acc : LC) :
    reSplitFuel (f + 1) acc (c :: cs) = reSplitFuel f (c :: acc) cs := by
  rw [reSplitFuel_succ, hm]

/-- Fuel irrelevance: any fuel at least the length of the text gives the
same split. -/
lemma reSplitFuel_irrel :
    ∀ f1 f2 acc (s : LC), s.length ≤ f1 → s.length ≤ f2 →
      reSplitFuel f1 acc s = reSplitFuel f2 acc s := by
  intro f1
  induction f1 with
  | zero =>
    intro f2 acc s h1 h2
    have hs : s = [] := by
      cases s with
      | nil => rfl
      | cons c cs => simp at h1
    subst hs
    cases f2 with
    | zero => rfl
    | succ g =>
      rw [reSplitFuel_succ_nil]
      show [acc.reverse ++ []] = [acc.reverse]
      simp
  | succ f ih =>
    intro f2 acc s h1 h2
    cases hm : tagMatchAt s with
    | some k =>
      have hb := tagMatch_bounds hm
      have hs : 1 ≤ s.length := by omega
      cases f2 with
      | zero => omega
      | succ g =>
        rw [reSplitFuel_succ_some hm, reSplitFuel_succ_some hm]
        rw [ih g [] (s.drop k) (by simp; omega) (by simp; omega)]
    | none =>
      cases s with
      | nil =>
        cases f2 with
        | zero =>
          rw [reSplitFuel_succ_nil]
          show [acc.reverse] = [acc.reverse ++ []]
          simp
        | succ g => rfl
      | cons c cs =>
        cases f2 with
        | zero => simp at h2
        | succ g =>
          rw [reSplitFuel_succ_none hm, reSplitFuel_succ_none hm]
          exact ih g (c :: acc) cs (by simp at h1; omega) (by simp at h2; omega)

/-- With no occurrence anywhere, the split is a single segment. -/
lemma reSplitFuel_noMatch :
    ∀ fuel acc (s : LC), s.length ≤ fuel → noMatch s →
      reSplitFuel fuel acc s = [acc.reverse ++ s] := by
  intro fuel
  induction fuel with
  | zero => intro acc s h1 h2; rfl
  | succ f ih =>
    intro acc s h1 h2
    have hm : tagMatchAt s = none := by
      have := h2 0
      simpa using this
    cases s with
    | nil =>
      rw [reSplitFuel_succ_nil]
      simp
    | cons c cs =>
      rw [reSplitFuel_succ_none hm]
      rw [ih (c :: acc) cs (by simp at h1; omega)
        (fun p => by simpa using h2 (p + 1))]
      simp

/-- No occurrence of the tag pattern starting strictly inside `v` when the
text continues with `rest`. -/
def noEarly (v rest : LC) : Prop :=
  ∀ p < v.length, tagMatchAt ((v ++ rest).drop p) = none

/-- One split step: scanning across a match-free prefix `v`, the first
match is the one at the head of `rest`. -/
lemma reSplitFuel_step :
    ∀ (v : LC) fuel acc {rest : LC} {k : Nat}, v.length + 1 ≤ fuel →
      noEarly v rest → tagMatchAt rest = some k →
      reSplitFuel fuel acc (v ++ rest)
        = (acc.reverse ++ v) :: rest.take k
            :: reSplitFuel (fuel - v.length - 1) [] (rest.drop k) := by
  intro v
  induction v with
  | nil =>
    intro fuel acc rest k h1 h2 hm
    cases fuel with
    | zero => omega
    | succ f =>
      rw [List.nil_append, reSplitFuel_succ_some hm]
      simp
  | cons c v ih =>
    intro fuel acc rest k h1 h2 hm
    cases fuel with
    | zero => simp at h1
    | succ f =>
      have hm0 : tagMatchAt (c :: (v ++ rest)) = none := by
        have := h2 0 (by simp)
        simpa using this
      rw [show (c :: v) ++ rest = c :: (v ++ rest) from rfl,
        reSplitFuel_succ_none hm0]
      rw [ih f (c :: acc) (by simp at h1; omega)
        (fun p hp => by
          have := h2 (p + 1) (by simp; omega)
          simpa using this) hm]
      have hf : f - v.length - 1 = f + 1 - (c :: v).length - 1 := by
        simp only [List.length_cons]
        omega
      rw [hf]
      simp

/-- A tag line matches the pattern with length the tag length plus two. -/
lemma tagMatch_delim {t : LC} (h : tagOK t = true) (X : LC) :
    tagMatchAt (' ' :: (t ++ '\n' :: X)) = some (t.length + 2) := by
  have hlen : t.length = 2 ∨ t.length = 3 := by
    unfold tagOK at h
    rcases Bool.and_eq_true_iff.1 h with ⟨h1, _⟩
    rcases Bool.or_eq_true_iff.1 h1 with h2 | h2
    · exact Or.inl (by simpa using h2)
    · exact Or.inr (by simpa using h2)
  have hup : ∀ c ∈ t, isUp c = true := by
    unfold tagOK at h
    rcases Bool.and_eq_true_iff.1 h with ⟨_, h2⟩
    simpa [List.all_eq_true] using h2
  match t, hlen with
  | [a, b], _ =>
    have ha : isUp a = true := hup a (by simp)
    have hb : isUp b = true := hup b (by simp)
    have h5 : m5 (' ' :: a :: b :: '\n' :: X) = false :=
      m5_false_at4 (by decide)
    have h4 : m4 (' ' :: a :: b :: '\n' :: X) = true :=
      m4_true_shape (by decide) ha hb
    rw [show ' ' :: ([a, b] ++ '\n' :: X) = ' ' :: a :: b :: '\n' :: X from rfl]
    rw [tagMatch_some4 h5 h4]
    rfl
  | [a, b, c], _ =>
    have ha : isUp a = true := hup a (by simp)
    have hb : isUp b = true := hup b (by simp)
    have hc : isUp c = true := hup c (by simp)
    have h5 : m5 (' ' :: a :: b :: c :: '\n' :: X) = true :=
      m5_true_shape (by decide) ha hb hc
    rw [show ' ' :: ([a, b, c] ++ '\n' :: X) = ' ' :: a :: b :: c :: '\n' :: X
      from rfl]
    rw [tagMatch_some5 h5]
    rfl

/-- A generic-layout block is empty or starts with its separating space. -/
lemma blockTail_shape (qs : List (LC × LC)) :
    blockTail qs = [] ∨ ∃ tl, blockTail qs = ' ' :: tl := by
  cases qs with
  | nil => exact Or.inl rfl
  | cons p rest =>
    rcases p with ⟨t, v⟩
    exact Or.inr ⟨t ++ '\n' :: (v ++ blockTail rest), rfl⟩

/-- Match-freedom inside a segment extends over the following block. -/
lemma noEarly_of_noMatch {v : LC} (h : noMatch v) {rest : LC}
    (hr : rest = [] ∨ ∃ tl, rest = ' ' :: tl) : noEarly v rest := by
  intro p hp
  rw [List.drop_append_of_le_length (by omega)]
  have hne : v.drop p ≠ [] := by
    intro hnil
    have := congrArg List.length hnil
    simp at this
    omega
  exact tagMatch_append_none hne (h p) hr

/-! ### Structure of the split of a generic-layout block -/

lemma blockTail_cons (t v : LC) (rest : List (LC × LC)) :
    blockTail ((t, v) :: rest) = ' ' :: (t ++ '\n' :: (v ++ blockTail rest)) :=
  rfl

lemma blockTail_ne_nil {qs : List (LC × LC)} (h : qs ≠ []) :
    blockTail qs ≠ [] := by
  cases qs with
  | nil => exact absurd rfl h
  | cons p rest =>
    rcases p with ⟨t, v⟩
    rw [blockTail_cons]
    simp

lemma segsOf_cons (t v : LC) (rest : List (LC × LC)) :
    segsOf ((t, v) :: rest) = delimOf t :: v :: segsOf rest := rfl

/-- The split of a match-free head segment followed by a generic-layout
block: the head segment, then alternately one tag line and one value
segment per pair. -/
lemma reSplit_structured :
    ∀ (qs : List (LC × LC)) (s : LC), noEarly s (blockTail qs) →
      (∀ p ∈ qs, tagOK p.1 = true ∧ hasTagPattern p.2 = false) →
      reSplit (s ++ blockTail qs) = s :: segsOf qs := by
  intro qs
  induction qs with
  | nil =>
    intro s hne _
    have hnm : noMatch s := by
      intro p
      by_cases hp : p < s.length
      · have h0 := hne p hp
        rw [show blockTail ([] : List (LC × LC)) = [] from rfl,
          List.append_nil] at h0
        exact h0
      · rw [List.drop_of_length_le (by omega)]
        rfl
    show reSplit (s ++ []) = [s]
    rw [List.append_nil]
    unfold reSplit
    rw [reSplitFuel_noMatch s.length [] s le_rfl hnm]
    simp
  | cons p rest ih =>
    rcases p with ⟨t, v⟩
    intro s hne hgood
    rcases hgood (t, v) (by simp) with ⟨ht, hv⟩
    have hm : tagMatchAt (blockTail ((t, v) :: rest)) = some (t.length + 2) := by
      rw [blockTail_cons]
      exact tagMatch_delim ht _
    have hlen1 : 1 ≤ (blockTail ((t, v) :: rest)).length := by
      rw [blockTail_cons]
      simp
    unfold reSplit
    rw [reSplitFuel_step s _ [] (by simp only [List.length_append]; omega) hne hm]
    have htake : (blockTail ((t, v) :: rest)).take (t.length + 2)
        = delimOf t := by
      rw [blockTail_cons]
      rw [show t.length + 2 = (t.length + 1) + 1 from rfl, List.take_succ_cons]
      rw [show t.length + 1 = t.length + 1 from rfl]
      rw [show (t ++ '\n' :: (v ++ blockTail rest)).take (t.length + 1)
          = t ++ ('\n' :: (v ++ blockTail rest)).take 1 from List.take_append 1]
      rfl
    have hdrop : (blockTail ((t, v) :: rest)).drop (t.length + 2)
        = v ++ blockTail rest := by
      rw [blockTail_cons]
      rw [show t.length + 2 = (t.length + 1) + 1 from rfl, List.drop_succ_cons]
      rw [show (t ++ '\n' :: (v ++ blockTail rest)).drop (t.length + 1)
          = ('\n' :: (v ++ blockTail rest)).drop 1 from List.drop_append 1]
      rfl
    rw [htake, hdrop]
    have hfuel : (v ++ blockTail rest).length
        ≤ (s ++ blockTail ((t, v) :: rest)).length - s.length - 1 := by
      rw [blockTail_cons]
      simp only [List.length_append, List.length_cons]
      omega
    rw [reSplitFuel_irrel _ (v ++ blockTail rest).length [] _ hfuel le_rfl]
    have hnoe : noEarly v (blockTail rest) := by
      apply noEarly_of_noMatch
      · exact hasTagPattern_false_iff.1 hv
      · exact blockTail_shape rest
    have := ih v hnoe (fun q hq => hgood q (by simp [hq]))
    unfold reSplit at this
    rw [this, segsOf_cons]
    simp

/-! ### The segment walk -/

lemma inHD_false_head {c : Char} (h : c ≠ 'H') (l : LC) :
    inHD (c :: l) = false := by
  match l with
  | [] | [x] => rfl
  | x :: y :: r => simp [inHD, h]

lemma inSE_false_head {c : Char} (h : c ≠ 'S') (l : LC) :
    inSE (c :: l) = false := by
  match l with
  | [] | [x] => rfl
  | x :: y :: r => simp [inSE, h]

lemma inHD_append {a : LC} (h : inHD a = true) (e : LC) :
    inHD (a ++ e) = true := by
  match a with
  | [] | [x] | [x, y] => simp [inHD] at h
  | x :: y :: z :: r => simpa [inHD] using h

lemma inSE_append {a : LC} (h : inSE a = true) (e : LC) :
    inSE (a ++ e) = true := by
  match a with
  | [] | [x] | [x, y] => simp [inSE] at h
  | x :: y :: z :: r => simpa [inSE] using h

lemma tagOK_shape {t : LC} (h : tagOK t = true) :
    (∃ a b, t = [a, b] ∧ isUp a = true ∧ isUp b = true) ∨
    (∃ a b c, t = [a, b, c] ∧ isUp a = true ∧ isUp b = true ∧ isUp c = true) := by
  have hlen : t.length = 2 ∨ t.length = 3 := by
    unfold tagOK at h
    rcases Bool.and_eq_true_iff.1 h with ⟨h1, _⟩
    rcases Bool.or_eq_true_iff.1 h1 with h2 | h2
    · exact Or.inl (by simpa using h2)
    · exact Or.inr (by simpa using h2)
  have hup : ∀ c ∈ t, isUp c = true := by
    unfold tagOK at h
    rcases Bool.and_eq_true_iff.1 h with ⟨_, h2⟩
    simpa [List.all_eq_true] using h2
  match t, hlen with
  | [a, b], _ =>
    exact Or.inl ⟨a, b, rfl, hup a (by simp), hup b (by simp)⟩
  | [a, b, c], _ =>
    exact Or.inr ⟨a, b, c, rfl, hup a (by simp), hup b (by simp),
      hup c (by simp)⟩

lemma pstrip_delim {t : LC} (h : tagOK t = true) :
    pstrip (delimOf t) = t := by
  have hup : ∀ c ∈ t, isUp c = true := by
    unfold tagOK at h
    rcases Bool.and_eq_true_iff.1 h with ⟨_, h2⟩
    simpa [List.all_eq_true] using h2
  have hne : t ≠ [] := by
    rcases tagOK_shape h with ⟨a, b, rfl, _, _⟩ | ⟨a, b, c, rfl, _, _, _⟩ <;> simp
  unfold pstrip delimOf
  have h1 : lstrip (' ' :: (t ++ ['\n'])) = t ++ ['\n'] := by
    rw [lstrip_cons_pos (by decide)]
    match t, hne with
    | a :: t', _ =>
      rw [show (a :: t') ++ ['\n'] = a :: (t' ++ ['\n']) from rfl,
        lstrip_cons_neg (pws_false_of_isUp (hup a (by simp)))]
  rw [h1]
  unfold rstrip
  rw [List.reverse_append, show (['\n'] : LC).reverse = ['\n'] from rfl,
    show (['\n'] : LC) ++ t.reverse = '\n' :: t.reverse from rfl,
    lstrip_cons_pos (by decide)]
  rw [lstrip_eq_self (fun c hc =>
    pws_false_of_isUp (hup c (by simpa using hc)))]
  simp

lemma fieldnames_tagOK : ∀ t ∈ fieldnames, tagOK t = true := by decide

lemma step_delim {t : LC} (ht : tagOK t = true) (htf : t ∈ fieldnames)
    (st : PSt) :
    step st (delimOf t) = ⟨t, st.val, upsert st.dict t st.val⟩ := by
  have hhd : inHD (delimOf t) = false := inHD_false_head (by decide) _
  have hse : inSE (delimOf t) = false := inSE_false_head (by decide) _
  have hm : (tagMatchAt (delimOf t)).isSome = true := by
    rw [show delimOf t = ' ' :: (t ++ '\n' :: []) from rfl, tagMatch_delim ht]
    rfl
  unfold step
  rw [hhd, hse, hm]
  simp only [if_true, if_false, Bool.false_eq_true, pstrip_delim ht, htf,
    ite_true]

lemma step_free {s : LC} (h1 : inHD s = false) (h2 : inSE s = false)
    (h3 : tagMatchAt s = none) (st : PSt) :
    step st s = ⟨st.key, pstrip s,
      if st.key ∈ fieldnames then upsert st.dict st.key (pstrip s)
      else st.dict⟩ := by
  unfold step
  rw [h1, h2, h3]
  simp

lemma upsert_upsert (d : List (LC × LC)) (k x y : LC) :
    upsert (upsert d k x) k y = upsert d k y := by
  induction d with
  | nil => simp [upsert]
  | cons p rest ih =>
    rcases p with ⟨k', v'⟩
    by_cases h : k' = k
    · simp [upsert, h]
    · simp [upsert, h, ih]

lemma plookup_upsert_self (d : List (LC × LC)) (k v : LC) :
    plookup (upsert d k v) k = some v := by
  induction d with
  | nil => simp [upsert, plookup]
  | cons p rest ih =>
    rcases p with ⟨k', v'⟩
    by_cases h : k' = k
    · simp [upsert, h, plookup]
    · simp [upsert, h, plookup, ih]

lemma plookup_upsert_other {k' k : LC} (h : k' ≠ k) (d : List (LC × LC))
    (v : LC) : plookup (upsert d k v) k' = plookup d k' := by
  have h' : ¬ k = k' := fun hh => h hh.symm
  induction d with
  | nil => simp [upsert, plookup, h']
  | cons p rest ih =>
    rcases p with ⟨k0, v0⟩
    by_cases h0 : k0 = k
    · subst h0
      simp [upsert, plookup, h']
    · simp only [upsert, h0, if_false, Bool.false_eq_true]
      by_cases h1 : k0 = k'
      · simp [plookup, h1]
      · simp [plookup, h1, ih]

/-- Walking the segments of a generic-layout block: each pair first writes
the stale value transiently, then overwrites it with its own trimmed
value, so the net effect is one update per pair. -/
lemma walk_segs :
    ∀ (qs : List (LC × LC)) (st : PSt),
      (∀ p ∈ qs, p.1 ∈ fieldnames ∧ tagOK p.1 = true ∧ inHD p.2 = false ∧
        inSE p.2 = false ∧ tagMatchAt p.2 = none) →
      (List.foldl step st (segsOf qs)).dict = List.foldl upsF st.dict qs := by
  intro qs
  induction qs with
  | nil => intro st _; rfl
  | cons p rest ih =>
    rcases p with ⟨t, v⟩
    intro st hq
    rcases hq (t, v) (by simp) with ⟨hf, ht, hhd, hse, hm⟩
    rw [segsOf_cons]
    rw [List.foldl_cons, List.foldl_cons]
    rw [step_delim ht hf]
    rw [step_free hhd hse hm]
    simp only [hf, ite_true]
    rw [upsert_upsert]
    rw [ih _ (fun q hq' => hq q (by simp [hq']))]
    rfl

lemma lookup_foldl_not_mem :
    ∀ (qs : List (LC × LC)) (d : List (LC × LC)) (t : LC),
      t ∉ qs.map Prod.fst →
      plookup (List.foldl upsF d qs) t = plookup d t := by
  intro qs
  induction qs with
  | nil => intro d t _; rfl
  | cons p rest ih =>
    intro d t ht
    rw [List.foldl_cons]
    rw [ih _ t (fun h => ht (by simp [h]))]
    exact plookup_upsert_other (fun h => ht (by simp [h])) d _

lemma lookup_foldl_mem :
    ∀ (qs : List (LC × LC)) (d : List (LC × LC)) (t v : LC),
      (qs.map Prod.fst).Nodup → (t, v) ∈ qs →
      plookup (List.foldl upsF d qs) t = some (pstrip v) := by
  intro qs
  induction qs with
  | nil => intro d t v _ h; simp at h
  | cons p rest ih =>
    intro d t v hnd hmem
    rw [List.foldl_cons]
    rcases List.mem_cons.1 hmem with heq | hmem'
    · subst heq
      have ht : t ∉ rest.map Prod.fst := by
        simp only [List.map_cons, List.nodup_cons] at hnd
        exact hnd.1
      rw [lookup_foldl_not_mem rest _ t ht]
      exact plookup_upsert_self d t (pstrip v)
    · have hnd' : (rest.map Prod.fst).Nodup := by
        simp only [List.map_cons, List.nodup_cons] at hnd
        exact hnd.2
      exact ih _ t v hnd' hmem'

/-! ### Right-stripping the block reaches only the last value -/

lemma mapLastVal_ne_nil {qs : List (LC × LC)} (h : qs ≠ []) :
    mapLastVal qs ≠ [] := by
  match qs with
  | [] => exact absurd rfl h
  | [p] => simp [mapLastVal]
  | p :: q :: rest => simp [mapLastVal]

lemma mapLastVal_map_fst :
    ∀ qs : List (LC × LC), (mapLastVal qs).map Prod.fst = qs.map Prod.fst := by
  intro qs
  match qs with
  | [] => rfl
  | [p] => rfl
  | p :: q :: rest =>
    show p.1 :: (mapLastVal (q :: rest)).map Prod.fst = p.1 :: _
    rw [mapLastVal_map_fst (q :: rest)]

lemma mapLastVal_mem :
    ∀ (qs : List (LC × LC)) (p : LC × LC), p ∈ mapLastVal qs →
      ∃ q ∈ qs, p.1 = q.1 ∧ (p.2 = q.2 ∨ p.2 = rstrip q.2) := by
  intro qs
  match qs with
  | [] => intro p h; simp [mapLastVal] at h
  | [q] =>
    intro p h
    simp only [mapLastVal, List.mem_singleton] at h
    subst h
    exact ⟨q, by simp, rfl, Or.inr rfl⟩
  | q :: q' :: rest =>
    intro p h
    rcases List.mem_cons.1 h with heq | h'
    · subst heq
      exact ⟨p, by simp, rfl, Or.inl rfl⟩
    · rcases mapLastVal_mem (q' :: rest) p h' with ⟨r, hr, h1, h2⟩
      exact ⟨r, by simp [List.mem_cons.1 hr], h1, h2⟩

lemma mem_mapLastVal :
    ∀ (qs : List (LC × LC)) (q : LC × LC), q ∈ qs →
      q ∈ mapLastVal qs ∨ (q.1, rstrip q.2) ∈ mapLastVal qs := by
  intro qs
  match qs with
  | [] => intro q h; simp at h
  | [p] =>
    intro q h
    simp only [List.mem_singleton] at h
    subst h
    exact Or.inr (by simp [mapLastVal])
  | p :: p' :: rest =>
    intro q h
    rcases List.mem_cons.1 h with heq | h'
    · subst heq
      exact Or.inl (by simp [mapLastVal])
    · rcases mem_mapLastVal (p' :: rest) q h' with h1 | h1
      · exact Or.inl (by simp [mapLastVal, h1])
      · exact Or.inr (by simp [mapLastVal, h1])

lemma lastVal_cons (v1 : LC) (p : LC × LC) (rest : List (LC × LC)) :
    lastVal v1 (p :: rest) = lastVal p.2 rest := rfl

/-- Right-stripping a non-empty generic-layout block right-strips exactly
its last value, provided that value does not strip to nothing. -/
lemma rstrip_blockTail :
    ∀ (rest : List (LC × LC)) (q : LC × LC),
      rstrip (lastVal q.2 rest) ≠ [] →
      rstrip (blockTail (q :: rest)) = blockTail (mapLastVal (q :: rest)) := by
  intro rest
  induction rest with
  | nil =>
    intro q h
    rcases q with ⟨t, v⟩
    have h' : rstrip v ≠ [] := h
    rw [blockTail_cons, show blockTail [] = [] from rfl, List.append_nil]
    rw [show ' ' :: (t ++ '\n' :: v) = (' ' :: (t ++ ['\n'])) ++ v from by simp]
    rw [rstrip_append h']
    show _ = blockTail [(t, rstrip v)]
    rw [blockTail_cons, show blockTail [] = [] from rfl, List.append_nil]
    simp
  | cons q' rest' ih =>
    intro q h
    rcases q with ⟨t, v⟩
    rw [blockTail_cons]
    have hx : rstrip (blockTail (q' :: rest')) = blockTail (mapLastVal (q' :: rest')) :=
      ih q' h
    have hxne : rstrip (blockTail (q' :: rest')) ≠ [] := by
      rw [hx]
      exact blockTail_ne_nil (mapLastVal_ne_nil (by simp))
    rw [show ' ' :: (t ++ '\n' :: (v ++ blockTail (q' :: rest')))
        = (' ' :: (t ++ '\n' :: v)) ++ blockTail (q' :: rest') from by simp]
    rw [rstrip_append hxne, hx]
    show _ = blockTail ((t, v) :: mapLastVal (q' :: rest'))
    rw [blockTail_cons]
    simp

/-- Trimming a generic-layout block removes the leading space and
right-strips the last value. -/
lemma pstrip_blockTail {t1 v1 : LC} (tps : List (LC × LC))
    (ht : tagOK t1 = true) (hl : rstrip (lastVal v1 tps) ≠ []) :
    pstrip (blockTail ((t1, v1) :: tps))
      = (t1 ++ '\n' :: headVal v1 tps) ++ blockTail (mapLastVal tps) := by
  rcases tagOK_shape ht with ⟨a, b, rfl, ha, _⟩ | ⟨a, b, c, rfl, ha, _, _⟩
  all_goals {
    unfold pstrip
    rw [blockTail_cons]
    rw [lstrip_cons_pos (by decide)]
    rw [show ∀ t' v' : LC, (a :: t') ++ '\n' :: (v' ++ blockTail tps)
        = a :: (t' ++ '\n' :: (v' ++ blockTail tps)) from fun t' v' => rfl]
    rw [lstrip_cons_neg (pws_false_of_isUp ha)]
    cases tps with
    | nil =>
      have h' : rstrip v1 ≠ [] := hl
      rw [show blockTail ([] : List (LC × LC)) = [] from rfl, List.append_nil]
      rw [show ∀ t' : LC, a :: (t' ++ '\n' :: v1)
          = (a :: (t' ++ ['\n'])) ++ v1 from fun t' => by simp]
      rw [rstrip_append h']
      show _ = _ ++ '\n' :: rstrip v1 ++ blockTail (mapLastVal [])
      rw [show mapLastVal ([] : List (LC × LC)) = [] from rfl]
      rw [show blockTail ([] : List (LC × LC)) = [] from rfl]
      simp
    | cons q rest =>
      have hx : rstrip (blockTail (q :: rest)) = blockTail (mapLastVal (q :: rest)) :=
        rstrip_blockTail rest q hl
      have hxne : rstrip (blockTail (q :: rest)) ≠ [] := by
        rw [hx]
        exact blockTail_ne_nil (mapLastVal_ne_nil (by simp))
      rw [show ∀ t' : LC, a :: (t' ++ '\n' :: (v1 ++ blockTail (q :: rest)))
          = (a :: (t' ++ '\n' :: v1)) ++ blockTail (q :: rest) from
        fun t' => by simp]
      rw [rstrip_append hxne, hx]
      show _ = _ ++ '\n' :: v1 ++ blockTail (mapLastVal (q :: rest))
      simp [headVal]
  }

/-! ### Assembling the parse of a generic-layout block -/

lemma tagMatch_of_noPattern {v : LC} (h : hasTagPattern v = false) :
    tagMatchAt v = none := by
  have := (hasTagPattern_false_iff.1 h) 0
  simpa using this

lemma noMatch_rstrip {v : LC} (h : noMatch v) : noMatch (rstrip v) :=
  noMatch_of_append (rstrip_append_eq v) h

lemma inHD_rstrip {v : LC} (h : inHD v = false) : inHD (rstrip v) = false := by
  cases hh : inHD (rstrip v) with
  | false => rfl
  | true =>
    have := inHD_append hh (v.reverse.takeWhile pws).reverse
    rw [rstrip_append_eq] at this
    rw [this] at h
    simp at h

lemma inSE_rstrip {v : LC} (h : inSE v = false) : inSE (rstrip v) = false := by
  cases hh : inSE (rstrip v) with
  | false => rfl
  | true =>
    have := inSE_append hh (v.reverse.takeWhile pws).reverse
    rw [rstrip_append_eq] at this
    rw [this] at h
    simp at h

lemma tagMatch_cons_rstrip {w : Char} {v : LC}
    (h : tagMatchAt (w :: v) = none) : tagMatchAt (w :: rstrip v) = none := by
  cases hh : tagMatchAt (w :: rstrip v) with
  | none => rfl
  | some k =>
    have hext := tagMatch_ext hh (v.reverse.takeWhile pws).reverse
    rw [show (w :: rstrip v) ++ (v.reverse.takeWhile pws).reverse
        = w :: (rstrip v ++ (v.reverse.takeWhile pws).reverse) from rfl,
      rstrip_append_eq] at hext
    rw [hext] at h
    simp at h

lemma goodPair_mapLastVal {tps : List (LC × LC)}
    (h : ∀ p ∈ tps, goodPair p) : ∀ p ∈ mapLastVal tps, goodPair p := by
  intro p hp
  rcases mapLastVal_mem tps p hp with ⟨q, hq, h1, h2⟩
  rcases h q hq with ⟨hf, hpat, hhd, hse⟩
  refine ⟨h1 ▸ hf, ?_, ?_, ?_⟩
  · rcases h2 with h2 | h2 <;> rw [h2]
    · exact hpat
    · exact hasTagPattern_false_iff.2 (noMatch_rstrip (hasTagPattern_false_iff.1 hpat))
  · rcases h2 with h2 | h2 <;> rw [h2]
    · exact hhd
    · exact inHD_rstrip hhd
  · rcases h2 with h2 | h2 <;> rw [h2]
    · exact hse
    · exact inSE_rstrip hse

lemma pstrip_headVal (v1 : LC) (tps : List (LC × LC)) :
    pstrip (headVal v1 tps) = pstrip v1 := by
  cases tps with
  | nil => exact pstrip_rstrip v1
  | cons q rest => rfl

lemma headVal_noMatch {v1 : LC} (h : hasTagPattern v1 = false)
    (tps : List (LC × LC)) : noMatch (headVal v1 tps) := by
  cases tps with
  | nil => exact noMatch_rstrip (hasTagPattern_false_iff.1 h)
  | cons q rest => exact hasTagPattern_false_iff.1 h

lemma headVal_cons_none {w : Char} {v1 : LC}
    (h : tagMatchAt (w :: v1) = none) (tps : List (LC × LC)) :
    tagMatchAt (w :: headVal v1 tps) = none := by
  cases tps with
  | nil => exact tagMatch_cons_rstrip h
  | cons q rest => exact h

/-- No tag-pattern occurrence starts inside a head segment made of
uppercase letters, one separator character and a match-free value. -/
lemma noEarly_head_seg {t1 : LC} (hup : ∀ c ∈ t1, isUp c = true)
    {w : Char} {hv : LC} (hw : tagMatchAt (w :: hv) = none)
    (hnm : noMatch hv) {rest : LC}
    (hshape : rest = [] ∨ ∃ tl, rest = ' ' :: tl) :
    noEarly (t1 ++ w :: hv) rest := by
  intro p hp
  rw [show (t1 ++ w :: hv) ++ rest = t1 ++ ((w :: hv) ++ rest) from by simp]
  by_cases hpt : p < t1.length
  · rw [List.drop_append_of_le_length (le_of_lt hpt)]
    cases hd : t1.drop p with
    | nil =>
      have := congrArg List.length hd
      simp at this
      omega
    | cons c l =>
      have hc : c ∈ t1 := List.drop_subset p t1 (by rw [hd]; simp)
      rw [show (c :: l) ++ ((w :: hv) ++ rest) = c :: (l ++ ((w :: hv) ++ rest))
        from rfl]
      exact tagMatch_not_ws (pws_false_of_isUp (hup c hc)) _
  · have hq : p - t1.length < (w :: hv).length := by
      simp only [List.length_append, List.length_cons] at hp ⊢
      omega
    have hsum : p = t1.length + (p - t1.length) := by omega
    rw [hsum, List.drop_append]
    cases hq0 : p - t1.length with
    | zero =>
      rw [List.drop_zero]
      exact tagMatch_append_none (by simp) hw hshape
    | succ q =>
      rw [show ((w :: hv) ++ rest).drop (q + 1) = (hv ++ rest).drop q from rfl]
      have hq2 : q < hv.length := by
        simp only [List.length_cons] at hq
        omega
      exact noEarly_of_noMatch hnm hshape q hq2

/-- The walk over an interleaved split, given a head segment. -/
lemma parse_structured (qs : List (LC × LC)) (s : LC)
    (hne : noEarly s (blockTail qs)) (hq : ∀ p ∈ qs, goodPair p) :
    parseCore (s ++ blockTail qs)
      = (List.foldl step (step startSt s) (segsOf qs)).dict := by
  unfold parseCore
  rw [reSplit_structured qs s hne
    (fun p hp => ⟨fieldnames_tagOK _ (hq p hp).1, (hq p hp).2.1⟩)]
  rw [List.foldl_cons]

/-- Net dictionary of the walk over a structured block. -/
lemma parse_structured_dict (qs : List (LC × LC)) (s : LC)
    (hne : noEarly s (blockTail qs)) (hq : ∀ p ∈ qs, goodPair p) :
    parseCore (s ++ blockTail qs)
      = List.foldl upsF (step startSt s).dict qs := by
  rw [parse_structured qs s hne hq]
  exact walk_segs qs _ (fun p hp =>
    ⟨(hq p hp).1, fieldnames_tagOK _ (hq p hp).1, (hq p hp).2.2.1,
      (hq p hp).2.2.2, tagMatch_of_noPattern (hq p hp).2.1⟩)

lemma inSE_false_second {c0 c1 : Char} (h : c1 ≠ 'E') (l : LC) :
    inSE (c0 :: c1 :: l) = false := by
  match l with
  | [] => rfl
  | x :: r => simp [inSE, h]

lemma step_start_free {s : LC} (hhd : inHD s = false) (hse : inSE s = false)
    (hm : tagMatchAt s = none) : step startSt s = ⟨[], pstrip s, []⟩ := by
  rw [step_free hhd hse hm]
  have hnf : ¬ (([] : LC) ∈ fieldnames) := by simp [fieldnames]
  simp [startSt, hnf]

lemma step_start_hd {w : Char} (hw : pws w = true) (hv : LC) :
    step startSt (hdK ++ w :: hv) = ⟨hdK, pstrip hv, [(hdK, pstrip hv)]⟩ := by
  have h1 : inHD ('H' :: 'D' :: w :: hv) = true := by simp [inHD, hw]
  show step startSt ('H' :: 'D' :: w :: hv) = _
  unfold step
  rw [h1]
  have h2 : hdK ∈ fieldnames := by simp [fieldnames, hdK]
  simp only [if_true, h2, ite_true]
  rfl

lemma step_start_se {w : Char} (hw : pws w = true) (hv : LC) :
    step startSt (seK ++ w :: hv) = ⟨seK, pstrip hv, [(seK, pstrip hv)]⟩ := by
  have h1 : inHD ('S' :: 'E' :: w :: hv) = false :=
    inHD_false_head (by decide) _
  have h2 : inSE ('S' :: 'E' :: w :: hv) = true := by simp [inSE, hw]
  show step startSt ('S' :: 'E' :: w :: hv) = _
  unfold step
  rw [h1, h2]
  have h3 : seK ∈ fieldnames := by simp [fieldnames, seK]
  simp only [if_true, if_false, Bool.false_eq_true, h3, ite_true]
  rfl

/-- The first segment of a block whose leading tag is configured but is
neither the headline nor the section code is classified as free text and
leaves the dictionary empty. -/
lemma step_start_junk {t1 : LC} (h1 : t1 ∈ fieldnames) (hhd : t1 ≠ hdK)
    (hse : t1 ≠ seK) (X : LC) :
    step startSt (t1 ++ X) = ⟨[], pstrip (t1 ++ X), []⟩ := by
  have h1' : t1 = ['S','E'] ∨ t1 = ['H','D'] ∨ t1 = ['W','C'] ∨
      t1 = ['P','D'] ∨ t1 = ['S','N'] ∨ t1 = ['S','C'] ∨ t1 = ['L','A'] ∨
      t1 = ['C','Y'] ∨ t1 = ['N','S'] ∨ t1 = ['C','O'] ∨ t1 = ['R','E'] ∨
      t1 = ['P','U','B'] ∨ t1 = ['A','N'] ∨ t1 = ['L','P'] ∨
      t1 = ['T','D'] := by
    simpa [fieldnames] using h1
  rcases h1' with rfl | rfl | rfl | rfl | rfl | rfl | rfl | rfl | rfl | rfl |
    rfl | rfl | rfl | rfl | rfl
  · exact absurd rfl hse
  · exact absurd rfl hhd
  all_goals {
    first
    | exact step_start_free (inHD_false_head (by decide) _)
        (inSE_false_head (by decide) _) (tagMatch_not_ws (by decide) _)
    | exact step_start_free (inHD_false_head (by decide) _)
        (inSE_false_second (by decide) _) (tagMatch_not_ws (by decide) _)
  }

/-- Parsing a synthetic generic-layout block: the net dictionary is one
update per pair of the right-stripped pair list, starting from whatever
the first segment produced. -/
lemma parse_block_core (t1 v1 : LC) (tps : List (LC × LC))
    (hgood : ∀ p ∈ (t1, v1) :: tps, goodPair p)
    (hv1 : tagMatchAt ('\n' :: v1) = none)
    (hlast : rstrip (lastVal v1 tps) ≠ []) :
    parseDoc (blockTail ((t1, v1) :: tps))
      = List.foldl upsF (step startSt (t1 ++ '\n' :: headVal v1 tps)).dict
          (mapLastVal tps) := by
  have hfirst := hgood (t1, v1) (by simp)
  have ht1 : tagOK t1 = true := fieldnames_tagOK _ hfirst.1
  have hup : ∀ c ∈ t1, isUp c = true := by
    unfold tagOK at ht1
    rcases Bool.and_eq_true_iff.1 ht1 with ⟨_, h2⟩
    simpa [List.all_eq_true] using h2
  unfold parseDoc
  rw [pstrip_blockTail tps ht1 hlast]
  rw [show (t1 ++ '\n' :: headVal v1 tps) ++ blockTail (mapLastVal tps)
      = (t1 ++ '\n' :: headVal v1 tps) ++ blockTail (mapLastVal tps) from rfl]
  exact parse_structured_dict (mapLastVal tps) _
    (noEarly_head_seg hup (headVal_cons_none hv1 tps)
      (headVal_noMatch hfirst.2.1 tps) (blockTail_shape _))
    (goodPair_mapLastVal (fun p hp => hgood p (by simp [hp])))

/-- The dictionary produced by the first segment of a generic-layout
block: the first pair survives exactly when its tag is the headline or
the section code. -/
lemma step_start_cases (t1 v1 : LC) (tps : List (LC × LC))
    (hf : t1 ∈ fieldnames) :
    (step startSt (t1 ++ '\n' :: headVal v1 tps)).dict
      = if t1 = hdK ∨ t1 = seK then [(t1, pstrip v1)] else [] := by
  by_cases h1 : t1 = hdK
  · subst h1
    rw [step_start_hd (by decide)]
    simp [pstrip_headVal]
  · by_cases h2 : t1 = seK
    · subst h2
      rw [step_start_se (by decide)]
      rw [if_pos (Or.inr rfl)]
      simp [pstrip_headVal]
    · rw [step_start_junk hf h1 h2]
      simp [h1, h2]

/-- Full lookup characterization of parsing a synthetic block in the
generic isolated-tag-line layout. -/
lemma parse_block_lookup (t1 v1 : LC) (tps : List (LC × LC))
    (hgood : ∀ p ∈ (t1, v1) :: tps, goodPair p)
    (hnd : (((t1, v1) :: tps).map Prod.fst).Nodup)
    (hv1 : tagMatchAt ('\n' :: v1) = none)
    (hlast : rstrip (lastVal v1 tps) ≠ []) :
    (∀ p ∈ tps,
      plookup (parseDoc (blockTail ((t1, v1) :: tps))) p.1
        = some (pstrip p.2))
    ∧ ((t1 = hdK ∨ t1 = seK) →
      plookup (parseDoc (blockTail ((t1, v1) :: tps))) t1
        = some (pstrip v1))
    ∧ (t1 ≠ hdK → t1 ≠ seK →
      plookup (parseDoc (blockTail ((t1, v1) :: tps))) t1 = none)
    ∧ (∀ c, c ∉ ((t1, v1) :: tps).map Prod.fst →
      plookup (parseDoc (blockTail ((t1, v1) :: tps))) c = none) := by
  have hcore := parse_block_core t1 v1 tps hgood hv1 hlast
  have hd1 := step_start_cases t1 v1 tps (hgood (t1, v1) (by simp)).1
  have hndc : t1 ∉ tps.map Prod.fst ∧ (tps.map Prod.fst).Nodup := by
    simpa [List.nodup_cons] using hnd
  have hmap : (mapLastVal tps).map Prod.fst = tps.map Prod.fst :=
    mapLastVal_map_fst tps
  have hndm : ((mapLastVal tps).map Prod.fst).Nodup := by
    rw [hmap]
    exact hndc.2
  refine ⟨?_, ?_, ?_, ?_⟩
  · rintro ⟨t, v⟩ hp
    rw [hcore]
    rcases mem_mapLastVal tps (t, v) hp with hm | hm
    · exact lookup_foldl_mem _ _ t v hndm hm
    · rw [lookup_foldl_mem _ _ t (rstrip v) hndm hm, pstrip_rstrip]
  · intro hts
    rw [hcore, lookup_foldl_not_mem _ _ t1 (by rw [hmap]; exact hndc.1)]
    rw [hd1, if_pos hts]
    simp [plookup]
  · intro h1 h2
    rw [hcore, lookup_foldl_not_mem _ _ t1 (by rw [hmap]; exact hndc.1)]
    rw [hd1, if_neg (by rintro (h | h) <;> [exact h1 h; exact h2 h])]
    rfl
  · intro c hc
    have hc1 : c ≠ t1 := by
      intro h
      exact hc (by simp [h])
    have hc2 : c ∉ tps.map Prod.fst := by
      intro h
      exact hc (by simp [h])
    rw [hcore, lookup_foldl_not_mem _ _ c (by rw [hmap]; exact hc2)]
    rw [hd1]
    by_cases hts : t1 = hdK ∨ t1 = seK
    · rw [if_pos hts]
      have hne : ¬ t1 = c := fun h => hc1 h.symm
      simp [plookup, hne]
    · rw [if_neg hts]
      rfl

/-- Right-stripping text that ends with a value followed by a block
reaches only the last value. -/
lemma rstrip_val_block (pre v1 : LC) (tps : List (LC × LC))
    (hl : rstrip (lastVal v1 tps) ≠ []) :
    rstrip (pre ++ (v1 ++ blockTail tps))
      = pre ++ (headVal v1 tps ++ blockTail (mapLastVal tps)) := by
  cases tps with
  | nil =>
    have h' : rstrip v1 ≠ [] := hl
    rw [show blockTail ([] : List (LC × LC)) = [] from rfl, List.append_nil]
    rw [rstrip_append h' pre]
    rw [show mapLastVal ([] : List (LC × LC)) = [] from rfl]
    rw [show blockTail ([] : List (LC × LC)) = [] from rfl]
    simp [headVal]
  | cons q rest =>
    have hx : rstrip (blockTail (q :: rest)) = blockTail (mapLastVal (q :: rest)) :=
      rstrip_blockTail rest q hl
    have hxne : rstrip (blockTail (q :: rest)) ≠ [] := by
      rw [hx]
      exact blockTail_ne_nil (mapLastVal_ne_nil (by simp))
    rw [show pre ++ (v1 ++ blockTail (q :: rest))
        = (pre ++ v1) ++ blockTail (q :: rest) from by simp]
    rw [rstrip_append hxne, hx]
    simp [headVal]

/-- Trimming a block that begins with an inline headline or section form
leaves the head intact and right-strips the last value. -/
lemma pstrip_inline (c : LC) (hc : c = hdK ∨ c = seK) (w : Char) (v1 : LC)
    (tps : List (LC × LC)) (hl : rstrip (lastVal v1 tps) ≠ []) :
    pstrip (c ++ w :: (v1 ++ blockTail tps))
      = (c ++ w :: headVal v1 tps) ++ blockTail (mapLastVal tps) := by
  unfold pstrip
  have hlst : lstrip (c ++ w :: (v1 ++ blockTail tps))
      = c ++ w :: (v1 ++ blockTail tps) := by
    rcases hc with rfl | rfl
    · exact lstrip_cons_neg (by decide) _
    · exact lstrip_cons_neg (by decide) _
  rw [hlst]
  rw [show c ++ w :: (v1 ++ blockTail tps)
      = (c ++ [w]) ++ (v1 ++ blockTail tps) from by simp]
  rw [rstrip_val_block _ _ _ hl]
  simp

/-- Parsing a block that begins with the inline headline/section form:
the inline code is recorded with its trimmed value, and the pairs of the
generic-layout remainder are recorded as usual. -/
lemma parse_inline_lookup (c : LC) (hc : c = hdK ∨ c = seK) (w : Char)
    (hw : pws w = true) (v1 : LC) (tps : List (LC × LC))
    (hgood : ∀ p ∈ tps, goodPair p)
    (hcv : c ∉ tps.map Prod.fst)
    (hnd : (tps.map Prod.fst).Nodup)
    (hv1 : tagMatchAt (w :: v1) = none)
    (hpat : hasTagPattern v1 = false)
    (hlast : rstrip (lastVal v1 tps) ≠ []) :
    plookup (parseDoc (c ++ w :: (v1 ++ blockTail tps))) c = some (pstrip v1)
    ∧ ∀ p ∈ tps,
        plookup (parseDoc (c ++ w :: (v1 ++ blockTail tps))) p.1
          = some (pstrip p.2) := by
  have hup : ∀ ch ∈ c, isUp ch = true := by
    rcases hc with rfl | rfl <;> decide
  unfold parseDoc
  rw [pstrip_inline c hc w v1 tps hlast]
  rw [parse_structured_dict (mapLastVal tps) (c ++ w :: headVal v1 tps)
    (noEarly_head_seg hup (headVal_cons_none hv1 tps)
      (headVal_noMatch hpat tps) (blockTail_shape _))
    (goodPair_mapLastVal hgood)]
  have hd1 : (step startSt (c ++ w :: headVal v1 tps)).dict
      = [(c, pstrip v1)] := by
    rcases hc with rfl | rfl
    · rw [step_start_hd hw]
      simp [pstrip_headVal]
    · rw [step_start_se hw]
      simp [pstrip_headVal]
  have hndm : ((mapLastVal tps).map Prod.fst).Nodup := by
    rw [mapLastVal_map_fst]
    exact hnd
  constructor
  · rw [lookup_foldl_not_mem _ _ c (by rw [mapLastVal_map_fst]; exact hcv),
      hd1]
    simp [plookup]
  · rintro ⟨t, v⟩ hp
    rcases mem_mapLastVal tps (t, v) hp with hm | hm
    · exact lookup_foldl_mem _ _ t v hndm hm
    · rw [lookup_foldl_mem _ _ t (rstrip v) hndm hm, pstrip_rstrip]

/-! ### Keys of the emitted record -/

lemma plookup_upsert_cases {d : List (LC × LC)} {k v c w : LC}
    (h : plookup (upsert d k v) c = some w) :
    c = k ∨ plookup d c = some w := by
  induction d with
  | nil =>
    simp only [upsert, plookup] at h
    by_cases hc : k = c
    · exact Or.inl hc.symm
    · simp [hc] at h
  | cons p rest ih =>
    rcases p with ⟨k0, v0⟩
    by_cases h0 : k0 = k
    · subst h0
      simp only [upsert, if_true, plookup] at h
      by_cases hc : k0 = c
      · exact Or.inl hc.symm
      · simp only [hc, if_false, Bool.false_eq_true] at h
        exact Or.inr (by simp [plookup, hc, h])
    · simp only [upsert, h0, if_false, Bool.false_eq_true, plookup] at h
      by_cases hc : k0 = c
      · exact Or.inr (by simp [plookup, hc]; simpa [hc] using h)
      · simp only [hc, if_false, Bool.false_eq_true] at h
        rcases ih h with h1 | h1
        · exact Or.inl h1
        · exact Or.inr (by simp [plookup, hc, h1])

lemma step_dict_shape (st : PSt) (s : LC) :
    (step st s).dict = st.dict ∨
    ∃ k0 v0, k0 ∈ fieldnames ∧ (step st s).dict = upsert st.dict k0 v0 := by
  unfold step
  generalize (if inHD s = true then (hdK, pstrip (s.drop 3))
      else if inSE s = true then (seK, pstrip (s.drop 3))
      else if (tagMatchAt s).isSome = true then (pstrip s, st.val)
      else (st.key, pstrip s)) = kv
  rcases kv with ⟨k0, v0⟩
  by_cases h : k0 ∈ fieldnames
  · exact Or.inr ⟨k0, v0, h, by simp [h]⟩
  · exact Or.inl (by simp [h])

lemma foldl_step_keys :
    ∀ (segs : List LC) (st : PSt),
      (∀ k v, plookup st.dict k = some v → k ∈ fieldnames) →
      ∀ k v, plookup (List.foldl step st segs).dict k = some v →
        k ∈ fieldnames := by
  intro segs
  induction segs with
  | nil => intro st h k v hk; exact h k v hk
  | cons s rest ih =>
    intro st h k v hk
    rw [List.foldl_cons] at hk
    refine ih (step st s) ?_ k v hk
    intro k' v' hk'
    rcases step_dict_shape st s with hs | ⟨k0, v0, hk0, hs⟩
    · rw [hs] at hk'
      exact h k' v' hk'
    · rw [hs] at hk'
      rcases plookup_upsert_cases hk' with rfl | h1
      · exact hk0
      · exact h k' v' h1

/-- Every key of every emitted record is a configured field code. -/
lemma parseDoc_keys (doc : LC) :
    ∀ k v, plookup (parseDoc doc) k = some v → k ∈ fieldnames := by
  intro k v h
  unfold parseDoc parseCore at h
  exact foldl_step_keys _ startSt (fun k' v' h' => by simp [startSt, plookup] at h')
    k v h

/-- A segment that begins with a tag match begins with whitespace. -/
lemma tagMatch_head_ws {s : LC} {k : Nat} (h : tagMatchAt s = some k) :
    ∃ c0 l, s = c0 :: l ∧ pws c0 = true := by
  rcases tagMatch_some_elim h with ⟨_, h5⟩ | ⟨_, h4, _⟩
  · match s, m5_length h5 with
    | c0 :: c1 :: c2 :: c3 :: c4 :: r, _ =>
      refine ⟨c0, _, rfl, ?_⟩
      have := h5
      simp [m5] at this
      exact this.1.1.1.1
  · match s, m4_length h4 with
    | c0 :: c1 :: c2 :: c3 :: r, _ =>
      refine ⟨c0, _, rfl, ?_⟩
      have := h4
      simp [m4] at this
      exact this.1.1.1

/-- Processing a tag-boundary segment whose code is not configured leaves
the dictionary untouched (it only moves the current key). -/
lemma step_unrecognized {s : LC} (hm : (tagMatchAt s).isSome = true)
    (hnf : pstrip s ∉ fieldnames) (st : PSt) :
    (step st s).dict = st.dict ∧ (step st s).key = pstrip s := by
  rcases Option.isSome_iff_exists.1 hm with ⟨k, hk⟩
  rcases tagMatch_head_ws hk with ⟨c0, l, rfl, hws⟩
  have hhd : inHD (c0 :: l) = false :=
    inHD_false_head (by rintro rfl; simp [pws] at hws) l
  have hse : inSE (c0 :: l) = false :=
    inSE_false_head (by rintro rfl; simp [pws] at hws) l
  unfold step
  rw [hhd, hse, hm]
  simp [hnf]

/-! ### Totality of the segment walk -/

lemma inHD_length {s : LC} (h : inHD s = true) : 3 ≤ s.length := by
  match s with
  | [] | [a] | [a, b] => simp [inHD] at h
  | a :: b :: c :: r => simp only [List.length_cons]; omega

lemma inSE_length {s : LC} (h : inSE s = true) : 3 ≤ s.length := by
  match s with
  | [] | [a] | [a, b] => simp [inSE] at h
  | a :: b :: c :: r => simp only [List.length_cons]; omega

lemma inHD_key {s : LC} (h : inHD s = true) :
    ∃ c l, s = 'H' :: 'D' :: c :: l ∧ pws c = true := by
  match s with
  | [] | [a] | [a, b] => simp [inHD] at h
  | a :: b :: c :: r =>
    simp only [inHD, Bool.and_eq_true, decide_eq_true_eq] at h
    exact ⟨c, r, by rw [h.1.1, h.1.2], h.2⟩

lemma inSE_key {s : LC} (h : inSE s = true) :
    ∃ c l, s = 'S' :: 'E' :: c :: l ∧ pws c = true := by
  match s with
  | [] | [a] | [a, b] => simp [inSE] at h
  | a :: b :: c :: r =>
    simp only [inSE, Bool.and_eq_true, decide_eq_true_eq] at h
    exact ⟨c, r, by rw [h.1.1, h.1.2], h.2⟩

lemma stepE_eq (st : PSt) (s : LC) : stepE st s = Except.ok (step st s) := by
  unfold stepE step
  by_cases h1 : inHD s = true
  · rw [h1]
    simp only [if_true, inHD_length h1, ite_true]
    rfl
  · rw [Bool.not_eq_true] at h1
    rw [h1]
    by_cases h2 : inSE s = true
    · rw [h2]
      simp only [if_true, if_false, Bool.false_eq_true, inSE_length h2,
        ite_true]
      rfl
    · rw [Bool.not_eq_true] at h2
      rw [h2]
      by_cases h3 : (tagMatchAt s).isSome = true
      · rw [h3]
        rfl
      · rw [Bool.not_eq_true] at h3
        rw [h3]
        rfl

lemma foldlM_stepE :
    ∀ (l : List LC) (st : PSt),
      List.foldlM stepE st l = Except.ok (List.foldl step st l) := by
  intro l
  induction l with
  | nil => intro st; rfl
  | cons s rest ih =>
    intro st
    rw [List.foldlM_cons, stepE_eq]
    show List.foldlM stepE (step st s) rest
        = Except.ok (List.foldl step st (s :: rest))
    rw [ih (step st s), List.foldl_cons]

/-! ### The loader: marker, page breaks, membership -/

/-- Does `m` occur anywhere in `s`? -/
def occursIn (m s : LC) : Bool :=
  (List.range s.length).any (fun p => leadsWith m (s.drop p))

lemma occursIn_false_iff {m s : LC} :
    occursIn m s = false ↔ ∀ p < s.length, leadsWith m (s.drop p) = false := by
  unfold occursIn
  rw [← Bool.not_eq_true, List.any_eq_true]
  constructor
  · intro h p hp
    cases hl : leadsWith m (s.drop p) with
    | false => rfl
    | true => exact absurd ⟨p, List.mem_range.2 hp, hl⟩ h
  · rintro h ⟨p, hp, hl⟩
    rw [h p (List.mem_range.1 hp)] at hl
    simp at hl

lemma leadsWith_append_self : ∀ (m x : LC), leadsWith m (m ++ x) = true := by
  intro m
  induction m with
  | nil => intro x; rfl
  | cons a m ih => intro x; simp [leadsWith, ih]

lemma leadsWith_of_append :
    ∀ (m x y : LC), leadsWith m (x ++ y) = true → m.length ≤ x.length →
      leadsWith m x = true := by
  intro m
  induction m with
  | nil => intro x y _ _; rfl
  | cons a m ih =>
    intro x y h hl
    cases x with
    | nil => simp at hl
    | cons b x' =>
      simp only [List.cons_append, leadsWith, Bool.and_eq_true,
        decide_eq_true_eq] at h ⊢
      exact ⟨h.1, ih x' y h.2 (by simp at hl ⊢; omega)⟩

/-- When the marker is absent the whole text is kept. -/
lemma takeBefore_absent {m : LC} (hm : m ≠ []) :
    ∀ text : LC, occursIn m text = false → takeBefore m text = text := by
  intro text
  induction text with
  | nil => intro _; rfl
  | cons c cs ih =>
    intro h
    have h' := occursIn_false_iff.1 h
    have h0 : leadsWith m (c :: cs) = false := by
      have := h' 0 (by simp)
      simpa using this
    unfold takeBefore
    rw [h0]
    simp only [if_false, Bool.false_eq_true]
    rw [ih (occursIn_false_iff.2 (fun p hp => by
      have := h' (p + 1) (by simp; omega)
      simpa using this))]

/-- Unfolding equation of `takeBefore` on a non-empty text. -/
lemma takeBefore_cons (m : LC) (c : Char) (cs : LC) :
    takeBefore m (c :: cs)
      = if leadsWith m (c :: cs) = true then [] else c :: takeBefore m cs :=
  rfl

/-- The loader keeps exactly the text before the first occurrence of the
marker, independently of what follows the marker. -/
lemma takeBefore_first {m : LC} (hm : m ≠ []) :
    ∀ a : LC, (∀ p < a.length, leadsWith m ((a ++ m).drop p) = false) →
      ∀ b, takeBefore m (a ++ (m ++ b)) = a := by
  intro a
  induction a with
  | nil =>
    intro _ b
    rcases m with _ | ⟨c, m'⟩
    · exact absurd rfl hm
    · show takeBefore (c :: m') (c :: (m' ++ b)) = []
      rw [takeBefore_cons]
      rw [show leadsWith (c :: m') (c :: (m' ++ b)) = true from
        leadsWith_append_self (c :: m') b]
      simp
  | cons c a' ih =>
    intro h b
    have h0 : leadsWith m ((c :: a') ++ (m ++ b)) = false := by
      cases hl : leadsWith m ((c :: a') ++ (m ++ b)) with
      | false => rfl
      | true =>
        have h1 : leadsWith m ((c :: a') ++ m) = true := by
          apply leadsWith_of_append m ((c :: a') ++ m) b
          · rw [show ((c :: a') ++ m) ++ b = (c :: a') ++ (m ++ b) from by
              simp]
            exact hl
          · simp only [List.length_append, List.length_cons]
            omega
        have h2 := h 0 (by simp)
        rw [List.drop_zero] at h2
        rw [h2] at h1
        simp at h1
    show takeBefore m (c :: (a' ++ (m ++ b))) = c :: a'
    rw [takeBefore_cons]
    rw [show c :: (a' ++ (m ++ b)) = (c :: a') ++ (m ++ b) from rfl, h0]
    simp only [if_false, Bool.false_eq_true]
    rw [ih (fun p hp => by
      have := h (p + 1) (by simp; omega)
      simpa using this) b]

lemma marker_ne_nil : marker ≠ [] := by simp [marker]

lemma mem_concatMap {f : α → List β} :
    ∀ (l : List α) (b : β), b ∈ concatMap f l ↔ ∃ a ∈ l, b ∈ f a := by
  intro l
  induction l with
  | nil => intro b; simp [concatMap]
  | cons a l ih =>
    intro b
    simp only [concatMap, List.mem_append, ih, List.mem_cons]
    constructor
    · rintro (h | ⟨a', ha', hb⟩)
      · exact ⟨a, Or.inl rfl, h⟩
      · exact ⟨a', Or.inr ha', hb⟩
    · rintro ⟨a', (rfl | ha'), hb⟩
      · exact Or.inl hb
      · exact Or.inr ⟨a', ha', hb⟩

/-- The provenance of a row: a block of the file that is non-empty after
trimming. -/
lemma processFile_mem {text : LC} {r : List (Option LC)}
    (h : r ∈ processFile text) :
    ∃ d ∈ splitFF (takeBefore marker text),
      pstrip d ≠ [] ∧ r = rowOf (parseCore (pstrip d)) := by
  unfold processFile fileDocs at h
  rcases List.mem_map.1 h with ⟨d', hd', rfl⟩
  rcases List.mem_filter.1 hd' with ⟨hd2, hne⟩
  rcases List.mem_map.1 hd2 with ⟨d, hd, rfl⟩
  refine ⟨d, hd, ?_, rfl⟩
  intro hnil
  rw [hnil] at hne
  simp at hne

/-! ### Sorted filename order -/

lemma lexLe_nil (b : LC) : lexLe [] b = true := rfl

lemma lexLe_total : ∀ a b : LC, lexLe a b = true ∨ lexLe b a = true := by
  intro a
  induction a with
  | nil => intro b; exact Or.inl rfl
  | cons x as ih =>
    intro b
    cases b with
    | nil => exact Or.inr rfl
    | cons y bs =>
      by_cases hxy : x = y
      · subst hxy
        rcases ih bs with h | h
        · exact Or.inl (by simp [lexLe, h])
        · exact Or.inr (by simp [lexLe, h])
      · rcases lt_trichotomy x y with hlt | heq | hlt
        · exact Or.inl (by simp [lexLe, hxy, hlt])
        · exact absurd heq hxy
        · have hyx : y ≠ x := fun h => hxy h.symm
          exact Or.inr (by simp [lexLe, hyx, hlt])

lemma lexLe_trans :
    ∀ a b c : LC, lexLe a b = true → lexLe b c = true → lexLe a c = true := by
  intro a
  induction a with
  | nil => intro b c _ _; rfl
  | cons x as ih =>
    intro b c h1 h2
    cases b with
    | nil => simp [lexLe] at h1
    | cons y bs =>
      cases c with
      | nil => simp [lexLe] at h2
      | cons z cs =>
        by_cases hxy : x = y
        · subst hxy
          simp only [lexLe, if_true, ite_true] at h1
          by_cases hyz : x = z
          · subst hyz
            simp only [lexLe, if_true, ite_true] at h2 ⊢
            exact ih bs cs h1 h2
          · simp only [lexLe, hyz, if_false, ite_false] at h2 ⊢
            exact h2
        · simp only [lexLe, hxy, ite_false] at h1
          have hlt1 : x < y := by simpa using h1
          by_cases hyz : y = z
          · subst hyz
            simp [lexLe, hxy, hlt1]
          · simp only [lexLe, hyz, ite_false] at h2
            have hlt2 : y < z := by simpa using h2
            have hlt3 : x < z := lt_trans hlt1 hlt2
            have hxz : x ≠ z := ne_of_lt hlt3
            simp [lexLe, hxz, hlt3]

instance : IsTotal FFile fRel :=
  ⟨fun f g => lexLe_total f.1 g.1⟩

instance : IsTrans FFile fRel :=
  ⟨fun f g h h1 h2 => lexLe_trans f.1 g.1 h.1 h1 h2⟩

/-! ### Alternation of the kept-delimiter split -/

lemma altSegs_aux :
    ∀ fuel (s acc : LC), s.length ≤ fuel →
      (acc = [] ∨ tagMatchAt (acc.reverse ++ s) = none) →
      altSegs (reSplitFuel fuel acc s) := by
  intro fuel
  induction fuel with
  | zero =>
    intro s acc h1 h2
    have hs : s = [] := by
      cases s with
      | nil => rfl
      | cons c cs => simp at h1
    subst hs
    show tagMatchAt (acc.reverse ++ []) = none
    rcases h2 with rfl | h2
    · rfl
    · exact h2
  | succ f ih =>
    intro s acc h1 h2
    cases hm : tagMatchAt s with
    | some k =>
      rw [reSplitFuel_succ_some hm]
      have hb := tagMatch_bounds hm
      refine ⟨?_, ?_, ?_⟩
      · cases hx : tagMatchAt acc.reverse with
        | none => rfl
        | some j =>
          exfalso
          have hext := tagMatch_ext hx s
          rcases h2 with rfl | h2
          · rw [show (([] : LC).reverse) = ([] : LC) from rfl] at hx
            rw [tagMatch_nil] at hx
            simp at hx
          · rw [h2] at hext
            simp at hext
      · rw [tagMatch_take hm]
        congr 1
        rw [List.length_take]
        omega
      · exact ih (s.drop k) [] (by simp; omega) (Or.inl rfl)
    | none =>
      cases s with
      | nil =>
        rw [reSplitFuel_succ_nil]
        show tagMatchAt acc.reverse = none
        rcases h2 with rfl | h2
        · rfl
        · simpa using h2
      | cons c cs =>
        rw [reSplitFuel_succ_none hm]
        refine ih cs (c :: acc) (by simp at h1; omega) (Or.inr ?_)
        rw [show (c :: acc).reverse ++ cs = acc.reverse ++ (c :: cs) from by
          simp]
        rcases h2 with rfl | h2
        · simpa using hm
        · exact h2

/-- Every split alternates: segments that do not begin with the pattern,
interleaved with full tag matches, and a trailing segment after every
delimiter. -/
lemma altSegs_reSplit (s : LC) : altSegs (reSplit s) :=
  altSegs_aux s.length s [] le_rfl (Or.inl rfl)

lemma lastVal_eq :
    ∀ (tps : List (LC × LC)) (v1 : LC),
      (lastVal v1 tps = v1 ∧ tps = []) ∨ ∃ p ∈ tps, lastVal v1 tps = p.2 := by
  intro tps
  induction tps with
  | nil => intro v1; exact Or.inl ⟨rfl, rfl⟩
  | cons p rest ih =>
    intro v1
    rw [lastVal_cons]
    rcases ih p.2 with ⟨heq, hnil⟩ | ⟨q, hq, heq⟩
    · subst hnil
      exact Or.inr ⟨p, by simp, heq⟩
    · exact Or.inr ⟨q, by simp [hq], heq⟩

/-! ### Claim theorems -/

/-- C1 counterexample: the round-trip fails as stated. The block built
from the pairs (WC, 100), (LA, English) — distinct configured tags,
non-empty values free of the tag-boundary pattern — does not parse back
to the full mapping: the first pair WC is lost, because trimming the
block removes the whitespace that the split pattern requires before the
first tag. -/
theorem c1_roundtrip_cex :
    (['W','C'] : LC) ∈ fieldnames
    ∧ (['L','A'] : LC) ∈ fieldnames
    ∧ hasTagPattern ['1','0','0'] = false
    ∧ hasTagPattern ['E','n','g','l','i','s','h'] = false
    ∧ rstrip ['1','0','0'] ≠ []
    ∧ rstrip ['E','n','g','l','i','s','h'] ≠ []
    ∧ plookup (parseDoc (blockTail
        [(['W','C'], ['1','0','0']),
         (['L','A'], ['E','n','g','l','i','s','h'])])) ['W','C'] = none
    ∧ plookup (parseDoc (blockTail
        [(['W','C'], ['1','0','0']),
         (['L','A'], ['E','n','g','l','i','s','h'])])) ['L','A']
        = some ['E','n','g','l','i','s','h'] := by
  decide

/-- C1 (amended): a synthetic block of distinct configured (tag, value)
pairs in the generic isolated-tag-line layout — values with non-blank
content, free of tag-boundary occurrences, not beginning with an inline
HD/SE form, and a first value not beginning with 2-3 uppercase letters
followed by a line break — parses back to the mapping of all pairs
except the first; the first pair is recorded (with its trimmed value)
exactly when its tag is the headline or section code, and no other
configured code is recorded. -/
theorem c1_roundtrip_amended (t1 v1 : LC) (tps : List (LC × LC))
    (hgood : ∀ p ∈ (t1, v1) :: tps, goodPair p)
    (hnd : (((t1, v1) :: tps).map Prod.fst).Nodup)
    (hv1 : tagMatchAt ('\n' :: v1) = none)
    (hvals : ∀ p ∈ (t1, v1) :: tps, rstrip p.2 ≠ []) :
    (∀ p ∈ tps,
      plookup (parseDoc (blockTail ((t1, v1) :: tps))) p.1
        = some (pstrip p.2))
    ∧ ((t1 = hdK ∨ t1 = seK) →
      plookup (parseDoc (blockTail ((t1, v1) :: tps))) t1
        = some (pstrip v1))
    ∧ (t1 ≠ hdK → t1 ≠ seK →
      plookup (parseDoc (blockTail ((t1, v1) :: tps))) t1 = none)
    ∧ (∀ c, c ∉ ((t1, v1) :: tps).map Prod.fst →
      plookup (parseDoc (blockTail ((t1, v1) :: tps))) c = none) := by
  have hlast : rstrip (lastVal v1 tps) ≠ [] := by
    rcases lastVal_eq tps v1 with ⟨heq, hnil⟩ | ⟨p, hp, heq⟩
    · subst hnil
      rw [heq]
      exact hvals (t1, v1) (by simp)
    · rw [heq]
      exact hvals p (by simp [hp])
  exact parse_block_lookup t1 v1 tps hgood hnd hv1 hlast

/-- Witness for C1 (amended) at a concrete block. -/
theorem c1_roundtrip_amended_witness :
    plookup (parseDoc (blockTail
      [(['H','D'], ['T','i','t','l','e']), (['L','A'], ['E','n','g'])]))
      ['L','A'] = some (pstrip ['E','n','g'])
    ∧ plookup (parseDoc (blockTail
      [(['H','D'], ['T','i','t','l','e']), (['L','A'], ['E','n','g'])]))
      ['H','D'] = some (pstrip ['T','i','t','l','e']) :=
  ⟨(c1_roundtrip_amended ['H','D'] ['T','i','t','l','e']
      [(['L','A'], ['E','n','g'])] (by decide) (by decide) (by decide)
      (by decide)).1 (['L','A'], ['E','n','g']) (by decide),
   (c1_roundtrip_amended ['H','D'] ['T','i','t','l','e']
      [(['L','A'], ['E','n','g'])] (by decide) (by decide) (by decide)
      (by decide)).2.1 (Or.inl rfl)⟩

/-- C2: unrecognized field codes are ignored. Every key of every emitted
record is a configured field code (an unrecognized code never appears as
a key), and processing a tag-boundary segment whose trimmed code is not
configured leaves the dictionary — in particular the value recorded for
the field that is active at that moment — unchanged. -/
theorem c2_unrecognized_ignored :
    (∀ (doc : LC) (k v : LC),
      plookup (parseDoc doc) k = some v → k ∈ fieldnames)
    ∧ (∀ (st : PSt) (s : LC), (tagMatchAt s).isSome = true →
        pstrip s ∉ fieldnames → (step st s).dict = st.dict) :=
  ⟨fun doc => parseDoc_keys doc,
   fun st s hm hnf => (step_unrecognized hm hnf st).1⟩

/-- Witness for C2 at a concrete record and a concrete unrecognized tag
segment. -/
theorem c2_unrecognized_ignored_witness :
    (['L','A'] : LC) ∈ fieldnames
    ∧ (step ⟨['L','A'], ['v'], [(['L','A'], ['v'])]⟩
        [' ','X','Y','\n']).dict = [(['L','A'], ['v'])] :=
  ⟨c2_unrecognized_ignored.1 ['x',' ','L','A','\n','E','n','g'] ['L','A']
      ['E','n','g'] (by decide),
   c2_unrecognized_ignored.2 ⟨['L','A'], ['v'], [(['L','A'], ['v'])]⟩
      [' ','X','Y','\n'] (by decide) (by decide)⟩

/-- C3: the headline and section codes parse both inline at the very
start of the trimmed block (code, whitespace character, value on the
same segment — the value being the remainder after the 3-character
prefix, trimmed) and mid-block in the generic isolated-tag-line layout
(the value being the following segment, trimmed). -/
theorem c3_inline_hd_se :
    (∀ (c : LC), (c = hdK ∨ c = seK) → ∀ (w : Char), pws w = true →
      ∀ (v1 : LC) (tps : List (LC × LC)),
        (∀ p ∈ tps, goodPair p) → c ∉ tps.map Prod.fst →
        (tps.map Prod.fst).Nodup → tagMatchAt (w :: v1) = none →
        hasTagPattern v1 = false → rstrip (lastVal v1 tps) ≠ [] →
        plookup (parseDoc (c ++ w :: (v1 ++ blockTail tps))) c
          = some (pstrip v1))
    ∧ (∀ (t1 v1 : LC) (tps : List (LC × LC)),
        (∀ p ∈ (t1, v1) :: tps, goodPair p) →
        (((t1, v1) :: tps).map Prod.fst).Nodup →
        tagMatchAt ('\n' :: v1) = none →
        rstrip (lastVal v1 tps) ≠ [] →
        ∀ p ∈ tps, (p.1 = hdK ∨ p.1 = seK) →
          plookup (parseDoc (blockTail ((t1, v1) :: tps))) p.1
            = some (pstrip p.2)) := by
  constructor
  · intro c hc w hw v1 tps hgood hcv hnd hv1 hpat hlast
    exact (parse_inline_lookup c hc w hw v1 tps hgood hcv hnd hv1 hpat
      hlast).1
  · intro t1 v1 tps hgood hnd hv1 hlast p hp _
    exact (parse_block_lookup t1 v1 tps hgood hnd hv1 hlast).1 p hp

/-- Witness for C3: an inline headline block and a mid-block section
tag. -/
theorem c3_inline_hd_se_witness :
    plookup (parseDoc (['H','D'] ++ ' ' :: (['T','i'] ++ blockTail [])))
      ['H','D'] = some (pstrip ['T','i'])
    ∧ plookup (parseDoc (blockTail
        [(['W','C'], ['1','0','0']), (['S','E'], ['N','e','w','s'])]))
      ['S','E'] = some (pstrip ['N','e','w','s']) :=
  ⟨c3_inline_hd_se.1 ['H','D'] (Or.inl rfl) ' ' (by decide) ['T','i'] []
      (by decide) (by decide) (by decide) (by decide) (by decide)
      (by decide),
   c3_inline_hd_se.2 ['W','C'] ['1','0','0'] [(['S','E'], ['N','e','w','s'])]
      (by decide) (by decide) (by decide) (by decide)
      (['S','E'], ['N','e','w','s']) (by decide) (Or.inr rfl)⟩

/-- C4: fixed output schema. Every emitted record has values only for
configured field codes, and every row of the output table is the
configured field list mapped through the record's lookup — one cell per
configured code, in configured order, with `none` (an empty cell) for a
code the record does not set. -/
theorem c4_fixed_schema :
    (∀ (doc : LC) (k v : LC),
      plookup (parseDoc doc) k = some v → k ∈ fieldnames)
    ∧ (∀ (files : List FFile) (r : List (Option LC)),
        r ∈ factivaBatch files →
          r.length = fieldnames.length
          ∧ ∃ d : LC, r = fieldnames.map (fun f => plookup (parseCore d) f)) := by
  constructor
  · exact fun doc => parseDoc_keys doc
  · intro files r hr
    unfold factivaBatch at hr
    rcases (mem_concatMap _ r).1 hr with ⟨f, _, hrf⟩
    rcases processFile_mem hrf with ⟨d, _, _, rfl⟩
    constructor
    · unfold rowOf
      rw [List.length_map]
    · exact ⟨pstrip d, rfl⟩

/-- Witness for C4 at a concrete one-file batch. -/
theorem c4_fixed_schema_witness :
    ([none, none, none, none, none, none,
        some (['E','n','g','l','i','s','h'] : LC), none, none, none, none,
        none, none, none, none] : List (Option LC)).length
      = fieldnames.length
    ∧ ∃ d : LC,
        ([none, none, none, none, none, none,
          some (['E','n','g','l','i','s','h'] : LC), none, none, none, none,
          none, none, none, none] : List (Option LC))
          = fieldnames.map (fun f => plookup (parseCore d) f) :=
  c4_fixed_schema.2
    [(['a','.','t','x','t'], ['x',' ','L','A','\n','E','n','g','l','i','s','h'])]
    [none, none, none, none, none, none,
      some (['E','n','g','l','i','s','h'] : LC), none, none, none, none,
      none, none, none, none]
    (by decide)

/-- C5: the Field-Tag Parser is total. The checked variant of the walk,
in which the 3-character prefix slice of the inline headline/section
branches is guarded by an explicit length check, returns a record and
never an error, on every input block whatsoever. -/
theorem c5_parser_total :
    ∀ doc : LC, parseDocE doc = Except.ok (parseDoc doc) := by
  intro doc
  unfold parseDocE parseCoreE parseDoc parseCore
  rw [foldlM_stepE]
  rfl

/-- C6: a block with no recognizable tag marker — no occurrence of the
tag-boundary pattern in the trimmed block, and the trimmed block does
not begin with the inline headline or section form — parses to the
empty record. -/
theorem c6_no_tags_empty_record (doc : LC)
    (h1 : hasTagPattern (pstrip doc) = false)
    (h2 : inHD (pstrip doc) = false)
    (h3 : inSE (pstrip doc) = false) :
    parseDoc doc = [] := by
  unfold parseDoc parseCore
  have hs : reSplit (pstrip doc) = [pstrip doc] := by
    unfold reSplit
    rw [reSplitFuel_noMatch _ _ _ le_rfl (hasTagPattern_false_iff.1 h1)]
    simp
  rw [hs]
  rw [show List.foldl step startSt [pstrip doc] = step startSt (pstrip doc)
    from rfl]
  rw [step_start_free h2 h3 (tagMatch_of_noPattern h1)]

/-- Witness for C6 at a concrete tagless block. -/
theorem c6_no_tags_empty_record_witness :
    parseDoc ['j','u','s','t',' ','s','o','m','e',' ','t','e','x','t'] = [] :=
  c6_no_tags_empty_record
    ['j','u','s','t',' ','s','o','m','e',' ','t','e','x','t']
    (by decide) (by decide) (by decide)

/-- C7: the loader discards everything from the first occurrence of the
summary marker onward — so the text after the marker contributes no
records — and keeps the whole content when the marker is absent. -/
theorem c7_loader_marker :
    (∀ text : LC, occursIn marker text = false →
      takeBefore marker text = text)
    ∧ (∀ a b : LC,
        (∀ p < a.length, leadsWith marker ((a ++ marker).drop p) = false) →
        takeBefore marker (a ++ (marker ++ b)) = a
        ∧ processFile (a ++ (marker ++ b))
            = processFile (a ++ (marker ++ []))) := by
  constructor
  · exact fun text => takeBefore_absent marker_ne_nil text
  · intro a b h
    have h1 : takeBefore marker (a ++ (marker ++ b)) = a :=
      takeBefore_first marker_ne_nil a h b
    have h2 : takeBefore marker (a ++ (marker ++ [])) = a :=
      takeBefore_first marker_ne_nil a h []
    refine ⟨h1, ?_⟩
    unfold processFile fileDocs
    rw [h1, h2]

/-- Witness for C7 at concrete text around the marker. -/
theorem c7_loader_marker_witness :
    takeBefore marker (['x'] ++ (marker ++ ['y'])) = ['x']
    ∧ processFile (['x'] ++ (marker ++ ['y']))
        = processFile (['x'] ++ (marker ++ [])) :=
  c7_loader_marker.2 ['x'] ['y'] (by decide)

/-- C8: blocks that are empty after trimming produce no record — a
separator-only file contributes zero rows — and every emitted row comes
from a block that is non-empty after trimming. -/
theorem c8_empty_blocks_dropped :
    processFile ['\x0c', '\x0c'] = []
    ∧ (∀ (text : LC) (r : List (Option LC)), r ∈ processFile text →
        ∃ d ∈ splitFF (takeBefore marker text),
          pstrip d ≠ [] ∧ r = rowOf (parseCore (pstrip d))) := by
  constructor
  · decide
  · intro text r h
    exact processFile_mem h

/-- Witness for C8 at a concrete file with one real block. -/
theorem c8_empty_blocks_dropped_witness :
    ∃ d ∈ splitFF (takeBefore marker ['x',' ','L','A','\n','E','n','g']),
      pstrip d ≠ []
      ∧ ([none, none, none, none, none, none, some (['E','n','g'] : LC),
          none, none, none, none, none, none, none, none] : List (Option LC))
          = rowOf (parseCore (pstrip d)) :=
  c8_empty_blocks_dropped.2 ['x',' ','L','A','\n','E','n','g']
    [none, none, none, none, none, none, some (['E','n','g'] : LC),
      none, none, none, none, none, none, none, none]
    (by decide)

/-- C9: the loader processes exactly the files whose name ends in
`.txt`, in lexicographically sorted filename order, and the output is
the concatenation of the per-file rows in that order — so all articles
of a lexicographically smaller filename precede those of a larger
one. -/
theorem c9_sorted_txt_files (files : List FFile) :
    (∀ f ∈ sortFiles (txtFiles files), endsTxt f.1 = true ∧ f ∈ files)
    ∧ (∀ f ∈ files, endsTxt f.1 = true → f ∈ sortFiles (txtFiles files))
    ∧ List.Pairwise fRel (sortFiles (txtFiles files))
    ∧ factivaBatch files
        = concatMap (fun f => processFile f.2) (sortFiles (txtFiles files)) := by
  have hperm := List.perm_insertionSort fRel (txtFiles files)
  refine ⟨?_, ?_, ?_, rfl⟩
  · intro f hf
    have hf' : f ∈ txtFiles files := hperm.mem_iff.1 hf
    rcases List.mem_filter.1 hf' with ⟨hmem, hends⟩
    exact ⟨hends, hmem⟩
  · intro f hf he
    exact hperm.mem_iff.2 (List.mem_filter.2 ⟨hf, he⟩)
  · exact List.sorted_insertionSort fRel (txtFiles files)

/-- Witness for C9 at a concrete directory listing. -/
theorem c9_sorted_txt_files_witness :
    (['a','.','t','x','t'], (['A'] : LC)) ∈ sortFiles (txtFiles
      [(['b','.','t','x','t'], ['B']), (['a','.','t','x','t'], ['A']),
       (['c','.','d','a','t'], ['C'])]) :=
  (c9_sorted_txt_files
    [(['b','.','t','x','t'], ['B']), (['a','.','t','x','t'], ['A']),
     (['c','.','d','a','t'], ['C'])]).2.1
    (['a','.','t','x','t'], ['A']) (by decide) (by decide)

/-- C10 counterexample: a tag-boundary segment is not always followed by
a segment that overwrites the transiently written value. In the block
`x WC\n100 LA\nHD title` the segment after the `LA` tag line begins with
the inline headline form, so `LA` keeps the transient value — it
inherits the value `100` of the preceding field `WC`. -/
theorem c10_overwrite_cex :
    reSplit (pstrip
        ['x',' ','W','C','\n','1','0','0',' ','L','A','\n',
         'H','D',' ','t','i','t','l','e'])
      = [['x'], [' ','W','C','\n'], ['1','0','0'], [' ','L','A','\n'],
         ['H','D',' ','t','i','t','l','e']]
    ∧ plookup (parseDoc
        ['x',' ','W','C','\n','1','0','0',' ','L','A','\n',
         'H','D',' ','t','i','t','l','e']) ['L','A'] = some ['1','0','0']
    ∧ plookup (parseDoc
        ['x',' ','W','C','\n','1','0','0',' ','L','A','\n',
         'H','D',' ','t','i','t','l','e']) ['W','C'] = some ['1','0','0'] := by
  decide

/-- C10 (amended): in the split sequence each tag-boundary element is
followed by exactly one (possibly empty) segment; when that segment does
not begin with an inline HD/SE form its trimmed text overwrites the
transiently written value — so a configured generic tag line immediately
followed by another tag line maps to the empty string (when the code is
not assigned again later) — but when the following segment begins with
the inline headline or section form, the tag keeps the transient value,
i.e. it inherits the value of the preceding field. -/
theorem c10_overwrite_amended :
    (∀ s : LC, altSegs (reSplit s))
    ∧ (∀ (st : PSt) (seg : LC), inHD seg = false → inSE seg = false →
        tagMatchAt seg = none → st.key ∈ fieldnames →
        plookup (step st seg).dict st.key = some (pstrip seg))
    ∧ (∀ (st : PSt) (seg : LC), inHD seg = true → st.key ≠ hdK →
        plookup (step st seg).dict st.key = plookup st.dict st.key)
    ∧ (∀ (st : PSt) (seg : LC), inSE seg = true → st.key ≠ seK →
        plookup (step st seg).dict st.key = plookup st.dict st.key)
    ∧ (∀ (t1 v1 : LC) (tps : List (LC × LC)),
        (∀ p ∈ (t1, v1) :: tps, goodPair p) →
        (((t1, v1) :: tps).map Prod.fst).Nodup →
        tagMatchAt ('\n' :: v1) = none →
        rstrip (lastVal v1 tps) ≠ [] →
        ∀ p ∈ tps, p.2 = [] →
          plookup (parseDoc (blockTail ((t1, v1) :: tps))) p.1 = some []) := by
  refine ⟨altSegs_reSplit, ?_, ?_, ?_, ?_⟩
  · intro st seg h1 h2 h3 hk
    rw [step_free h1 h2 h3]
    simp only [hk, ite_true]
    exact plookup_upsert_self st.dict st.key (pstrip seg)
  · intro st seg h1 hk
    unfold step
    rw [h1]
    simp only [if_true]
    have hf : hdK ∈ fieldnames := by decide
    simp only [hf, ite_true]
    exact plookup_upsert_other hk st.dict _
  · intro st seg h1 hk
    rcases inSE_key h1 with ⟨c, l, rfl, _⟩
    have hhd : inHD ('S' :: 'E' :: c :: l) = false :=
      inHD_false_head (by decide) _
    unfold step
    rw [hhd, h1]
    simp only [if_true, if_false, Bool.false_eq_true]
    have hf : seK ∈ fieldnames := by decide
    simp only [hf, ite_true]
    exact plookup_upsert_other hk st.dict _
  · intro t1 v1 tps hgood hnd hv1 hlast p hp hp2
    have := (parse_block_lookup t1 v1 tps hgood hnd hv1 hlast).1 p hp
    rw [hp2] at this
    exact this

/-- Witness for C10 (amended): the overwrite, the inline headline and
section exceptions and the empty-value instance at concrete inputs. -/
theorem c10_overwrite_amended_witness :
    plookup (step ⟨['L','A'], ['v'], [(['L','A'], ['v'])]⟩
        ['h','i']).dict ['L','A'] = some (pstrip ['h','i'])
    ∧ plookup (step ⟨['L','A'], ['v'], [(['L','A'], ['v'])]⟩
        ['H','D',' ','t']).dict ['L','A']
        = plookup [(['L','A'], ['v'])] ['L','A']
    ∧ plookup (step ⟨['L','A'], ['v'], [(['L','A'], ['v'])]⟩
        ['S','E',' ','t']).dict ['L','A']
        = plookup [(['L','A'], ['v'])] ['L','A']
    ∧ plookup (parseDoc (blockTail
        [(['H','D'], ['x']), (['L','A'], []), (['W','C'], ['9'])]))
        ['L','A'] = some [] :=
  ⟨c10_overwrite_amended.2.1 ⟨['L','A'], ['v'], [(['L','A'], ['v'])]⟩
      ['h','i'] (by decide) (by decide) (by decide) (by decide),
   c10_overwrite_amended.2.2.1 ⟨['L','A'], ['v'], [(['L','A'], ['v'])]⟩
      ['H','D',' ','t'] (by decide) (by decide),
   c10_overwrite_amended.2.2.2.1 ⟨['L','A'], ['v'], [(['L','A'], ['v'])]⟩
      ['S','E',' ','t'] (by decide) (by decide),
   c10_overwrite_amended.2.2.2.2 ['H','D'] ['x']
      [(['L','A'], []), (['W','C'], ['9'])] (by decide) (by decide)
      (by decide) (by decide) (['L','A'], []) (by decide) rfl⟩
